import Mathlib

/-!
Verification of the sequence-comparison core of `src/debug/liveedit.cc`
(the LiveEdit diff engine): the dynamic-programming `Differencer`, its
`ResultWriter` chunk merger, the `NarrowDownInput` prefix/suffix trimming,
and the two-level (line, then token) comparison pipeline behind
`LiveEdit::CompareStrings`.

The C++ code is shallowly embedded as executable Lean functions.  The C++
memoization table (`buffer_`) caches results of the pure recursion
`CompareUpToTail`; since `Comparator::Input::Equals` is observationally pure
during one comparison, the cached cell values and direction tags coincide
with the pure recursive function, so the embedding drops the cache and keeps
the recursion.  Recursions that the C++ writes as loops or recursion on a
shrinking numeric measure are given an explicit fuel argument (so that the
kernel can evaluate them on concrete inputs); each such function comes with
a congruence lemma showing the result does not depend on the fuel once the
fuel dominates the measure, and an unfolding lemma recovering the exact
recurrence of the source.
-/

namespace LiveEdit

/-! ## Definitions: the shallow embedding of the source -/

/-- A chunk `(pos1, pos2, len1, len2)`: the span `[pos1, pos1+len1)` of the
first sequence is replaced by the span `[pos2, pos2+len2)` of the second.
This is the argument tuple of `Comparator::Output::AddChunk`. -/
structure Chunk where
  pos1 : Nat
  pos2 : Nat
  len1 : Nat
  len2 : Nat
deriving Repr, DecidableEq

/-- The 2-bit direction tag stored in each DP cell (`Differencer::Direction`). -/
inductive Direction where
  | EQ
  | SKIP1
  | SKIP2
  | SKIP_ANY
deriving Repr, DecidableEq

/-- One step of the classification stream that `Differencer::SaveResult`
feeds into its `ResultWriter`: an equal position, a skip of `n` positions of
sequence 1 (`writer.skip1(n)`), or a skip of `n` positions of sequence 2
(`writer.skip2(n)`). -/
inductive DiffStep where
  | eqS
  | skipA (n : Nat)
  | skipB (n : Nat)
deriving Repr, DecidableEq

/-- Fueled version of `Differencer::CompareUpToTail`.  The result is the
cost shifted left by the 2 direction bits (`res << kDirectionSizeBits`,
i.e. multiplied by 4); `min` is written as the source's three-way comparison
on the shifted values. -/
def compareUpToTailF (eqf : Nat → Nat → Bool) (len1 len2 : Nat) :
    Nat → Nat → Nat → Nat
  | 0, _, _ => 0
  | fuel + 1, pos1, pos2 =>
    if pos1 < len1 then
      if pos2 < len2 then
        if eqf pos1 pos2 then
          compareUpToTailF eqf len1 len2 fuel (pos1 + 1) (pos2 + 1)
        else
          let res1 := compareUpToTailF eqf len1 len2 fuel (pos1 + 1) pos2 + 4
          let res2 := compareUpToTailF eqf len1 len2 fuel pos1 (pos2 + 1) + 4
          if res1 ≤ res2 then res1 else res2
      else (len1 - pos1) * 4
    else (len2 - pos2) * 4

/-- `Differencer::CompareUpToTail` (the stored, shifted cell value). -/
def compareUpToTail (eqf : Nat → Nat → Bool) (len1 len2 pos1 pos2 : Nat) : Nat :=
  compareUpToTailF eqf len1 len2 ((len1 - pos1) + (len2 - pos2)) pos1 pos2

/-- The unshifted cost: `compareUpToTail` divided by `1 << kDirectionSizeBits`.
Defined by the same recurrence, with the shifted three-way minimum replaced
by `min`. -/
def costF (eqf : Nat → Nat → Bool) (len1 len2 : Nat) : Nat → Nat → Nat → Nat
  | 0, _, _ => 0
  | fuel + 1, pos1, pos2 =>
    if pos1 < len1 then
      if pos2 < len2 then
        if eqf pos1 pos2 then
          costF eqf len1 len2 fuel (pos1 + 1) (pos2 + 1)
        else
          1 + min (costF eqf len1 len2 fuel (pos1 + 1) pos2)
                (costF eqf len1 len2 fuel pos1 (pos2 + 1))
      else len1 - pos1
    else len2 - pos2

def cost (eqf : Nat → Nat → Bool) (len1 len2 pos1 pos2 : Nat) : Nat :=
  costF eqf len1 len2 ((len1 - pos1) + (len2 - pos2)) pos1 pos2

/-- The direction tag stored for an interior cell `(pos1, pos2)` with
`pos1 < len1` and `pos2 < len2` (the tag computed and cached by
`Differencer::CompareUpToTail`, later read back by `get_direction`). -/
def direction (eqf : Nat → Nat → Bool) (len1 len2 pos1 pos2 : Nat) : Direction :=
  if eqf pos1 pos2 then Direction.EQ
  else
    let res1 := compareUpToTail eqf len1 len2 (pos1 + 1) pos2 + 4
    let res2 := compareUpToTail eqf len1 len2 pos1 (pos2 + 1) + 4
    if res1 = res2 then Direction.SKIP_ANY
    else if res1 < res2 then Direction.SKIP1
    else Direction.SKIP2

/-! ### The chunk merger (`Differencer::ResultWriter`) -/

/-- State of `Differencer::ResultWriter`, together with the list of chunks
passed to the underlying `Comparator::Output` so far.  The C++ initializes
`pos1_begin_`/`pos2_begin_` to the sentinel `-1`; those fields are only read
after `StartChunk` has set them (guarded by `has_open_chunk_`), so the
embedding initializes them to `0`. -/
structure Writer where
  pos1 : Nat
  pos2 : Nat
  pos1Begin : Nat
  pos2Begin : Nat
  hasOpen : Bool
  chunks : List Chunk
deriving Repr, DecidableEq

def Writer.start : Writer := ⟨0, 0, 0, 0, false, []⟩

/-- `ResultWriter::StartChunk`. -/
def Writer.startChunk (w : Writer) : Writer :=
  if w.hasOpen then w
  else { w with pos1Begin := w.pos1, pos2Begin := w.pos2, hasOpen := true }

/-- `ResultWriter::FlushChunk`. -/
def Writer.flushChunk (w : Writer) : Writer :=
  if w.hasOpen then
    { w with
      chunks := w.chunks ++
        [⟨w.pos1Begin, w.pos2Begin, w.pos1 - w.pos1Begin, w.pos2 - w.pos2Begin⟩],
      hasOpen := false }
  else w

/-- `ResultWriter::eq`. -/
def Writer.eqStep (w : Writer) : Writer :=
  let w := w.flushChunk
  { w with pos1 := w.pos1 + 1, pos2 := w.pos2 + 1 }

/-- `ResultWriter::skip1`. -/
def Writer.skip1 (w : Writer) (n : Nat) : Writer :=
  let w := w.startChunk
  { w with pos1 := w.pos1 + n }

/-- `ResultWriter::skip2`. -/
def Writer.skip2 (w : Writer) (n : Nat) : Writer :=
  let w := w.startChunk
  { w with pos2 := w.pos2 + n }

/-- `ResultWriter::close`. -/
def Writer.close (w : Writer) : Writer :=
  w.flushChunk

@[simp] theorem Writer.startChunk_pos1 (w : Writer) : w.startChunk.pos1 = w.pos1 := by
  simp only [Writer.startChunk]
  split <;> rfl

@[simp] theorem Writer.startChunk_pos2 (w : Writer) : w.startChunk.pos2 = w.pos2 := by
  simp only [Writer.startChunk]
  split <;> rfl

@[simp] theorem Writer.flushChunk_pos1 (w : Writer) : w.flushChunk.pos1 = w.pos1 := by
  simp only [Writer.flushChunk]
  split <;> rfl

@[simp] theorem Writer.flushChunk_pos2 (w : Writer) : w.flushChunk.pos2 = w.pos2 := by
  simp only [Writer.flushChunk]
  split <;> rfl

@[simp] theorem Writer.eqStep_pos1 (w : Writer) : w.eqStep.pos1 = w.pos1 + 1 := by
  simp [Writer.eqStep]

@[simp] theorem Writer.eqStep_pos2 (w : Writer) : w.eqStep.pos2 = w.pos2 + 1 := by
  simp [Writer.eqStep]

@[simp] theorem Writer.skip1_pos1 (w : Writer) (n : Nat) : (w.skip1 n).pos1 = w.pos1 + n := by
  simp [Writer.skip1]

@[simp] theorem Writer.skip1_pos2 (w : Writer) (n : Nat) : (w.skip1 n).pos2 = w.pos2 := by
  simp [Writer.skip1]

@[simp] theorem Writer.skip2_pos1 (w : Writer) (n : Nat) : (w.skip2 n).pos1 = w.pos1 := by
  simp [Writer.skip2]

@[simp] theorem Writer.skip2_pos2 (w : Writer) (n : Nat) : (w.skip2 n).pos2 = w.pos2 + n := by
  simp [Writer.skip2]

/-! ### `Differencer::SaveResult` -/

/-- Fueled version of the `while (true)` loop of `Differencer::SaveResult`.
The loop variables `pos1`/`pos2` of the C++ always coincide with the
writer's `pos1_`/`pos2_`, so the embedding keeps only the writer state. -/
def saveLoopF (eqf : Nat → Nat → Bool) (len1 len2 : Nat) :
    Nat → Writer → Writer
  | 0, w => w
  | fuel + 1, w =>
    if w.pos1 < len1 then
      if w.pos2 < len2 then
        match direction eqf len1 len2 w.pos1 w.pos2 with
        | Direction.EQ => saveLoopF eqf len1 len2 fuel w.eqStep
        | Direction.SKIP1 => saveLoopF eqf len1 len2 fuel (w.skip1 1)
        | Direction.SKIP2 => saveLoopF eqf len1 len2 fuel (w.skip2 1)
        | Direction.SKIP_ANY => saveLoopF eqf len1 len2 fuel (w.skip2 1)
      else w.skip1 (len1 - w.pos1)
    else if len2 ≠ w.pos2 then w.skip2 (len2 - w.pos2) else w

/-- `Differencer::SaveResult` followed by `writer.close()`; the resulting
chunk list is what the underlying `Comparator::Output` receives. -/
def saveResult (eqf : Nat → Nat → Bool) (len1 len2 : Nat) : Writer :=
  (saveLoopF eqf len1 len2 (len1 + len2) Writer.start).close

/-- `Comparator::CalculateDifference`, as the chunk list delivered to the
output writer. -/
def calculateDifference (eqf : Nat → Nat → Bool) (len1 len2 : Nat) : List Chunk :=
  (saveResult eqf len1 len2).chunks

/-- The classification stream that `SaveResult` emits: the sequence of
`writer.eq()` / `writer.skip1(...)` / `writer.skip2(...)` calls made while
walking the stored directions from `(pos1, pos2)`. -/
def saveStepsF (eqf : Nat → Nat → Bool) (len1 len2 : Nat) :
    Nat → Nat → Nat → List DiffStep
  | 0, _, _ => []
  | fuel + 1, pos1, pos2 =>
    if pos1 < len1 then
      if pos2 < len2 then
        match direction eqf len1 len2 pos1 pos2 with
        | Direction.EQ => DiffStep.eqS :: saveStepsF eqf len1 len2 fuel (pos1 + 1) (pos2 + 1)
        | Direction.SKIP1 => DiffStep.skipA 1 :: saveStepsF eqf len1 len2 fuel (pos1 + 1) pos2
        | Direction.SKIP2 => DiffStep.skipB 1 :: saveStepsF eqf len1 len2 fuel pos1 (pos2 + 1)
        | Direction.SKIP_ANY => DiffStep.skipB 1 :: saveStepsF eqf len1 len2 fuel pos1 (pos2 + 1)
      else [DiffStep.skipA (len1 - pos1)]
    else if len2 ≠ pos2 then [DiffStep.skipB (len2 - pos2)] else []

def saveSteps (eqf : Nat → Nat → Bool) (len1 len2 pos1 pos2 : Nat) : List DiffStep :=
  saveStepsF eqf len1 len2 ((len1 - pos1) + (len2 - pos2)) pos1 pos2

/-- Replaying a classification stream through the writer. -/
def runWriter (w : Writer) : List DiffStep → Writer
  | [] => w
  | DiffStep.eqS :: r => runWriter w.eqStep r
  | DiffStep.skipA n :: r => runWriter (w.skip1 n) r
  | DiffStep.skipB n :: r => runWriter (w.skip2 n) r

/-- The chunks the merger emits for a classification stream (including the
final `close`). -/
def writerChunks (steps : List DiffStep) : List Chunk :=
  ((runWriter Writer.start steps).close).chunks

/-! ### Classification streams as alignments

A classification stream is a valid alignment of `A[i:]` with `B[j:]` when
its equal steps only pair equal elements, its skips stay inside the two
sequences, and it ends exactly at `(len1, len2)`.  The number of skipped
positions of a stream is the "number of skip operations" of the spec. -/

def traceSkips : List DiffStep → Nat
  | [] => 0
  | DiffStep.eqS :: r => traceSkips r
  | DiffStep.skipA n :: r => n + traceSkips r
  | DiffStep.skipB n :: r => n + traceSkips r

def ValidTrace (eqf : Nat → Nat → Bool) (len1 len2 : Nat) :
    Nat → Nat → List DiffStep → Prop
  | i, j, [] => i = len1 ∧ j = len2
  | i, j, DiffStep.eqS :: r =>
      i < len1 ∧ j < len2 ∧ eqf i j = true ∧ ValidTrace eqf len1 len2 (i + 1) (j + 1) r
  | i, j, DiffStep.skipA n :: r =>
      0 < n ∧ i + n ≤ len1 ∧ ValidTrace eqf len1 len2 (i + n) j r
  | i, j, DiffStep.skipB n :: r =>
      0 < n ∧ j + n ≤ len2 ∧ ValidTrace eqf len1 len2 i (j + n) r

/-! ### The merger output as a function of the classification stream -/

/-- The chunks the `ResultWriter` will still emit, given its current state
(`hasOpen`, chunk start `b1`/`b2`, cursors `i`/`j`) and the remaining
classification stream (followed by `close`). -/
def mergeFrom : Bool → Nat → Nat → Nat → Nat → List DiffStep → List Chunk
  | false, _, _, _, _, [] => []
  | true, b1, b2, i, j, [] => [⟨b1, b2, i - b1, j - b2⟩]
  | false, _, _, i, j, DiffStep.eqS :: r => mergeFrom false 0 0 (i + 1) (j + 1) r
  | true, b1, b2, i, j, DiffStep.eqS :: r =>
      ⟨b1, b2, i - b1, j - b2⟩ :: mergeFrom false 0 0 (i + 1) (j + 1) r
  | false, _, _, i, j, DiffStep.skipA n :: r => mergeFrom true i j (i + n) j r
  | true, b1, b2, i, j, DiffStep.skipA n :: r => mergeFrom true b1 b2 (i + n) j r
  | false, _, _, i, j, DiffStep.skipB n :: r => mergeFrom true i j i (j + n) r
  | true, b1, b2, i, j, DiffStep.skipB n :: r => mergeFrom true b1 b2 i (j + n) r

/-! ### Ordered coverings

`Covers eqf e1 e2 i j cs` says: `cs` is an ordered, non-overlapping chunk
list inside the rectangle from `(i, j)` to `(e1, e2)`, and all positions
outside the chunks are aligned (same offset on both sides) and equal under
`eqf`.  This is exactly what it means for a chunk list to transform
`A[i..e1)` into `B[j..e2)` while leaving non-chunk positions unchanged. -/

def Covers (eqf : Nat → Nat → Bool) (e1 e2 : Nat) : Nat → Nat → List Chunk → Prop
  | i, j, [] =>
      i ≤ e1 ∧ j ≤ e2 ∧ e1 - i = e2 - j ∧ ∀ k, i + k < e1 → eqf (i + k) (j + k) = true
  | i, j, c :: rest =>
      i ≤ c.pos1 ∧ j ≤ c.pos2 ∧ c.pos1 - i = c.pos2 - j ∧
      (∀ k, i + k < c.pos1 → eqf (i + k) (j + k) = true) ∧
      c.pos1 + c.len1 ≤ e1 ∧ c.pos2 + c.len2 ≤ e2 ∧
      Covers eqf e1 e2 (c.pos1 + c.len1) (c.pos2 + c.len2) rest

/-! ### Chunk-list metrics and invariants -/

/-- Total number of skipped positions of a chunk list (`Σ len1 + len2`). -/
def chunksTotalLen : List Chunk → Nat
  | [] => 0
  | c :: r => c.len1 + c.len2 + chunksTotalLen r

/-- The chunk cost used by the spec: `Σ max(len1,1) + max(len2,1)`. -/
def specChunkCost : List Chunk → Nat
  | [] => 0
  | c :: r => max c.len1 1 + max c.len2 1 + specChunkCost r

/-- Consecutive chunks do not overlap, on either side. -/
def chunksOrdered : List Chunk → Bool
  | [] => true
  | [_] => true
  | c :: d :: r =>
      (decide (c.pos1 + c.len1 ≤ d.pos1) && decide (c.pos2 + c.len2 ≤ d.pos2)) &&
        chunksOrdered (d :: r)

/-- Starting from offset `d = bStart - aStart`, each chunk's `pos2 - pos1`
equals the accumulated length delta of the chunks before it. -/
def chunksAligned : Int → List Chunk → Bool
  | _, [] => true
  | d, c :: r =>
      decide ((c.pos2 : Int) - (c.pos1 : Int) = d) &&
        chunksAligned (d + (c.len2 : Int) - (c.len1 : Int)) r

/-! ### From coverings back to valid alignment streams -/

/-- A run of `n` equal steps. -/
def eqRun : Nat → List DiffStep
  | 0 => []
  | n + 1 => DiffStep.eqS :: eqRun n

/-- The skip steps corresponding to one chunk. -/
def skipsOf (c : Chunk) : List DiffStep :=
  (if c.len1 = 0 then [] else [DiffStep.skipA c.len1]) ++
    (if c.len2 = 0 then [] else [DiffStep.skipB c.len2])

/-- A classification stream realizing a given covering. -/
def traceOfCovers (e1 : Nat) : Nat → Nat → List Chunk → List DiffStep
  | i, _, [] => eqRun (e1 - i)
  | i, _, c :: rest =>
      eqRun (c.pos1 - i) ++ (skipsOf c ++
        traceOfCovers e1 (c.pos1 + c.len1) (c.pos2 + c.len2) rest)

/-! ### Chunk counting (one chunk per maximal skip run) -/

/-- Number of maximal runs of skip steps (of either kind, with no
intervening equal step); the `Bool` records whether the previous step was a
skip. -/
def skipRunsAux : Bool → List DiffStep → Nat
  | _, [] => 0
  | _, DiffStep.eqS :: r => skipRunsAux false r
  | false, DiffStep.skipA _ :: r => 1 + skipRunsAux true r
  | true, DiffStep.skipA _ :: r => skipRunsAux true r
  | false, DiffStep.skipB _ :: r => 1 + skipRunsAux true r
  | true, DiffStep.skipB _ :: r => skipRunsAux true r

def skipRuns (steps : List DiffStep) : Nat := skipRunsAux false steps

/-! ### The two-level string pipeline of `LiveEdit::CompareStrings`

Strings are embedded as `List Char`; out-of-range reads use `getD` with a
default (the C++ only reads in range). -/

/-- Positions of line-terminator characters of a string.  Modelled from the
spec: `String::CalculateLineEnds` is called by `LineEndsWrapper` but is not
part of the given sources; per the spec (LineIndex "scans once for
line-terminator positions and stores them"), it returns the positions of
the newline characters, in increasing order. -/
def lineEndPositions (s : List Char) : List Nat :=
  (List.range s.length).filter fun i => s.getD i ' ' == char_newline
where
  /-- The newline character. -/
  char_newline : Char := Char.ofNat 10

/-- `LineEndsWrapper`: wraps the raw `n`-element line-ends array as a list
of `n + 1` lines. -/
structure LineEndsWrapper where
  ends : List Nat
  strLen : Nat
deriving Repr, DecidableEq

def LineEndsWrapper.ofString (s : List Char) : LineEndsWrapper :=
  ⟨lineEndPositions s, s.length⟩

/-- `LineEndsWrapper::length`. -/
def LineEndsWrapper.length (le : LineEndsWrapper) : Nat := le.ends.length + 1

/-- `LineEndsWrapper::GetPosAfterNewLine`. -/
def LineEndsWrapper.getPosAfterNewLine (le : LineEndsWrapper) (index : Nat) : Nat :=
  le.ends.getD index 0 + 1

/-- `LineEndsWrapper::GetLineEnd`. -/
def LineEndsWrapper.getLineEnd (le : LineEndsWrapper) (index : Nat) : Nat :=
  if index = le.ends.length then le.strLen else le.getPosAfterNewLine index

/-- `LineEndsWrapper::GetLineStart`. -/
def LineEndsWrapper.getLineStart (le : LineEndsWrapper) (index : Nat) : Nat :=
  if index = 0 then 0 else le.getLineEnd (index - 1)

/-- `CompareSubstrings`. -/
def compareSubstrings (s1 : List Char) (pos1 : Nat) (s2 : List Char) (pos2 len : Nat) :
    Bool :=
  (List.range len).all fun i => s1.getD (i + pos1) ' ' == s2.getD (i + pos2) ' '

/-- `LineArrayCompareInput::Equals` (the subrange offsets are added by the
callers below, as in the source). -/
def lineEquals (s1 s2 : List Char) (le1 le2 : LineEndsWrapper) (index1 index2 : Nat) :
    Bool :=
  let lineStart1 := le1.getLineStart index1
  let lineStart2 := le2.getLineStart index2
  let lineEnd1 := le1.getLineEnd index1
  let lineEnd2 := le2.getLineEnd index2
  let len1 := lineEnd1 - lineStart1
  let len2 := lineEnd2 - lineStart2
  if len1 ≠ len2 then false
  else compareSubstrings s1 lineStart1 s2 lineStart2 len1

/-- The bounded while-scan used twice by `NarrowDownInput`: the number of
consecutive indices from `k` (bounded by `limit` in total) on which `pred`
holds. -/
def scanCount (pred : Nat → Bool) : Nat → Nat → Nat
  | 0, _ => 0
  | limit + 1, k => if pred k then scanCount pred limit (k + 1) + 1 else 0

/-- The common-prefix scan of `NarrowDownInput`. -/
def commonPrefixLength (eqf : Nat → Nat → Bool) (len1 len2 : Nat) : Nat :=
  scanCount (fun k => eqf k k) (min len1 len2) 0

/-- The common-suffix scan of `NarrowDownInput` (performed after the prefix
scan found `p` common leading elements). -/
def commonSuffixLength (eqf : Nat → Nat → Bool) (len1 len2 p : Nat) : Nat :=
  scanCount (fun t => eqf (len1 - t - 1) (len2 - t - 1)) (min (len1 - p) (len2 - p)) 0

/-- `TokensCompareInput` + `Comparator::CalculateDifference`: the nested
character-level diff of the two subranges (no narrowing is applied). -/
def tokensDiff (s1 : List Char) (offset1 len1 : Nat) (s2 : List Char)
    (offset2 len2 : Nat) : List Chunk :=
  calculateDifference
    (fun index1 index2 => s1.getD (offset1 + index1) ' ' == s2.getD (offset2 + index2) ' ')
    len1 len2

/-- `TokenizingLineArrayCompareOutput::CHUNK_LEN_LIMIT`. -/
def CHUNK_LEN_LIMIT : Nat := 800

/-- `TokenizingLineArrayCompareOutput::AddChunk`: converts a line-level
chunk to character coordinates, runs a nested token diff (shifted to
absolute positions by `TokensCompareOutput`) when both character lengths
are below `CHUNK_LEN_LIMIT`, and writes the chunk verbatim otherwise. -/
def tokenizingAddChunk (s1 s2 : List Char) (le1 le2 : LineEndsWrapper)
    (subrangeOffset1 subrangeOffset2 : Nat) (c : Chunk) : List Chunk :=
  let linePos1 := c.pos1 + subrangeOffset1
  let linePos2 := c.pos2 + subrangeOffset2
  let charPos1 := le1.getLineStart linePos1
  let charPos2 := le2.getLineStart linePos2
  let charLen1 := le1.getLineStart (linePos1 + c.len1) - charPos1
  let charLen2 := le2.getLineStart (linePos2 + c.len2) - charPos2
  if charLen1 < CHUNK_LEN_LIMIT ∧ charLen2 < CHUNK_LEN_LIMIT then
    (tokensDiff s1 charPos1 charLen1 s2 charPos2 charLen2).map
      fun d => ⟨d.pos1 + charPos1, d.pos2 + charPos2, d.len1, d.len2⟩
  else [⟨charPos1, charPos2, charLen1, charLen2⟩]

def concatMapChunks (f : Chunk → List Chunk) : List Chunk → List Chunk
  | [] => []
  | c :: r => f c ++ concatMapChunks f r

/-- `LiveEdit::CompareStrings`: build the line views, narrow by the common
prefix and suffix (`NarrowDownInput` subranges input and output only when
one of them is positive), run the line-level diff, and process every line
chunk through `TokenizingLineArrayCompareOutput::AddChunk`. -/
def compareStrings (s1 s2 : List Char) : List Chunk :=
  let le1 := LineEndsWrapper.ofString s1
  let le2 := LineEndsWrapper.ofString s2
  let len1 := le1.length
  let len2 := le2.length
  let eqf := fun index1 index2 => lineEquals s1 s2 le1 le2 index1 index2
  let p := commonPrefixLength eqf len1 len2
  let q := commonSuffixLength eqf len1 len2 p
  if 0 < p ∨ 0 < q then
    concatMapChunks (tokenizingAddChunk s1 s2 le1 le2 p p)
      (calculateDifference (fun index1 index2 => eqf (index1 + p) (index2 + p))
        (len1 - q - p) (len2 - q - p))
  else
    concatMapChunks (tokenizingAddChunk s1 s2 le1 le2 0 0)
      (calculateDifference eqf len1 len2)

/-- The same pipeline with the `NarrowDownInput` step omitted. -/
def compareStringsNoNarrow (s1 s2 : List Char) : List Chunk :=
  let le1 := LineEndsWrapper.ofString s1
  let le2 := LineEndsWrapper.ofString s2
  let len1 := le1.length
  let len2 := le2.length
  let eqf := fun index1 index2 => lineEquals s1 s2 le1 le2 index1 index2
  concatMapChunks (tokenizingAddChunk s1 s2 le1 le2 0 0)
    (calculateDifference eqf len1 len2)

/-- Character-level equality view of two strings. -/
def charEq (s1 s2 : List Char) : Nat → Nat → Bool :=
  fun index1 index2 => s1.getD index1 ' ' == s2.getD index2 ' '

/-- `slice l s e` is the span `[s, e)` of `l`. -/
def slice (l : List Char) (s e : Nat) : List Char := (l.drop s).take (e - s)

/-- Apply a chunk list to `a` (from position `i` on): non-chunk spans of
`a` are kept, each chunk's span of `a` is replaced by the corresponding
span of `b`. -/
def applyChunks (a b : List Char) : Nat → List Chunk → List Char
  | i, [] => a.drop i
  | i, c :: rest =>
      slice a i c.pos1 ++ slice b c.pos2 (c.pos2 + c.len2) ++
        applyChunks a b (c.pos1 + c.len1) rest

/-! ### Decidable covering check and auxiliary transfers -/

/-- Executable version of `Covers`. -/
def coversB (eqf : Nat → Nat → Bool) (e1 e2 : Nat) : Nat → Nat → List Chunk → Bool
  | i, j, [] =>
      decide (i ≤ e1) && decide (j ≤ e2) && decide (e1 - i = e2 - j) &&
        ((List.range (e1 - i)).all fun k => eqf (i + k) (j + k))
  | i, j, c :: rest =>
      decide (i ≤ c.pos1) && decide (j ≤ c.pos2) && decide (c.pos1 - i = c.pos2 - j) &&
        ((List.range (c.pos1 - i)).all fun k => eqf (i + k) (j + k)) &&
        decide (c.pos1 + c.len1 ≤ e1) && decide (c.pos2 + c.len2 ≤ e2) &&
        coversB eqf e1 e2 (c.pos1 + c.len1) (c.pos2 + c.len2) rest

/-- Modelled from the spec (the nested stage claim C5 describes): a
character-level diff of two spans that first runs the PrefixSuffixTrimmer
(`NarrowDownInput`) on the span pair, then the DiffEngine and ChunkMerger
on the residual middle, with the narrowing offset added back to the
sub-chunk coordinates. -/
def tokensDiffWithTrimming (s1 : List Char) (offset1 len1 : Nat) (s2 : List Char)
    (offset2 len2 : Nat) : List Chunk :=
  let eqf := fun a b => s1.getD (offset1 + a) ' ' == s2.getD (offset2 + b) ' '
  let p := commonPrefixLength eqf len1 len2
  let q := commonSuffixLength eqf len1 len2 p
  if 0 < p ∨ 0 < q then
    (calculateDifference (fun a b => eqf (a + p) (b + p)) (len1 - q - p) (len2 - q - p)).map
      fun c => ⟨c.pos1 + p, c.pos2 + p, c.len1, c.len2⟩
  else calculateDifference eqf len1 len2

/-- The claim's version of `AddChunk`: as `tokenizingAddChunk`, but the
nested character run includes the PrefixSuffixTrimmer stage. -/
def tokenizingAddChunkSpec (s1 s2 : List Char) (le1 le2 : LineEndsWrapper)
    (subrangeOffset1 subrangeOffset2 : Nat) (c : Chunk) : List Chunk :=
  let linePos1 := c.pos1 + subrangeOffset1
  let linePos2 := c.pos2 + subrangeOffset2
  let charPos1 := le1.getLineStart linePos1
  let charPos2 := le2.getLineStart linePos2
  let charLen1 := le1.getLineStart (linePos1 + c.len1) - charPos1
  let charLen2 := le2.getLineStart (linePos2 + c.len2) - charPos2
  if charLen1 < CHUNK_LEN_LIMIT ∧ charLen2 < CHUNK_LEN_LIMIT then
    (tokensDiffWithTrimming s1 charPos1 charLen1 s2 charPos2 charLen2).map
      fun d => ⟨d.pos1 + charPos1, d.pos2 + charPos2, d.len1, d.len2⟩
  else [⟨charPos1, charPos2, charLen1, charLen2⟩]

/-- The newline character. -/
def char_nl : Char := Char.ofNat 10

/-! ## Theorems -/

theorem compareUpToTailF_congr (eqf : Nat → Nat → Bool) (len1 len2 : Nat) :
    ∀ f g pos1 pos2, (len1 - pos1) + (len2 - pos2) ≤ f →
      (len1 - pos1) + (len2 - pos2) ≤ g →
      compareUpToTailF eqf len1 len2 f pos1 pos2 =
        compareUpToTailF eqf len1 len2 g pos1 pos2 := by
  intro f
  induction f with
  | zero =>
    intro g pos1 pos2 hf _
    have h1 : ¬ pos1 < len1 := by omega
    have h2 : len2 - pos2 = 0 := by omega
    cases g with
    | zero => rfl
    | succ g => simp [compareUpToTailF, h1, h2]
  | succ f ih =>
    intro g pos1 pos2 hf hg
    cases g with
    | zero =>
      have h1 : ¬ pos1 < len1 := by omega
      have h2 : len2 - pos2 = 0 := by omega
      simp [compareUpToTailF, h1, h2]
    | succ g =>
      simp only [compareUpToTailF]
      by_cases h1 : pos1 < len1
      · by_cases h2 : pos2 < len2
        · simp only [h1, h2, if_true]
          by_cases he : eqf pos1 pos2
          · simp only [he, if_true]
            exact ih g (pos1 + 1) (pos2 + 1) (by omega) (by omega)
          · simp only [he, Bool.false_eq_true, if_false]
            rw [ih g (pos1 + 1) pos2 (by omega) (by omega),
                ih g pos1 (pos2 + 1) (by omega) (by omega)]
        · simp [h1, h2]
      · simp [h1]

theorem compareUpToTail_eq (eqf : Nat → Nat → Bool) (len1 len2 pos1 pos2 : Nat) :
    compareUpToTail eqf len1 len2 pos1 pos2 =
      if pos1 < len1 then
        if pos2 < len2 then
          if eqf pos1 pos2 then
            compareUpToTail eqf len1 len2 (pos1 + 1) (pos2 + 1)
          else
            let res1 := compareUpToTail eqf len1 len2 (pos1 + 1) pos2 + 4
            let res2 := compareUpToTail eqf len1 len2 pos1 (pos2 + 1) + 4
            if res1 ≤ res2 then res1 else res2
        else (len1 - pos1) * 4
      else (len2 - pos2) * 4 := by
  have h0 : compareUpToTail eqf len1 len2 pos1 pos2 =
      compareUpToTailF eqf len1 len2 ((len1 - pos1) + (len2 - pos2) + 1) pos1 pos2 :=
    compareUpToTailF_congr eqf len1 len2 _ _ pos1 pos2 (Nat.le_refl _) (Nat.le_succ _)
  rw [h0]
  simp only [compareUpToTailF]
  by_cases h1 : pos1 < len1
  · by_cases h2 : pos2 < len2
    · simp only [h1, h2, if_true]
      by_cases he : eqf pos1 pos2
      · simp only [he, if_true, compareUpToTail]
        exact compareUpToTailF_congr eqf len1 len2 _ _ _ _ (by omega) (by omega)
      · simp only [he, Bool.false_eq_true, if_false, compareUpToTail]
        rw [compareUpToTailF_congr eqf len1 len2 _ ((len1 - (pos1+1)) + (len2 - pos2))
              (pos1 + 1) pos2 (by omega) (by omega),
            compareUpToTailF_congr eqf len1 len2 _ ((len1 - pos1) + (len2 - (pos2+1)))
              pos1 (pos2 + 1) (by omega) (by omega)]
    · simp [h1, h2]
  · simp [h1]

theorem costF_congr (eqf : Nat → Nat → Bool) (len1 len2 : Nat) :
    ∀ f g pos1 pos2, (len1 - pos1) + (len2 - pos2) ≤ f →
      (len1 - pos1) + (len2 - pos2) ≤ g →
      costF eqf len1 len2 f pos1 pos2 = costF eqf len1 len2 g pos1 pos2 := by
  intro f
  induction f with
  | zero =>
    intro g pos1 pos2 hf _
    have h1 : ¬ pos1 < len1 := by omega
    have h2 : len2 - pos2 = 0 := by omega
    cases g with
    | zero => rfl
    | succ g => simp [costF, h1, h2]
  | succ f ih =>
    intro g pos1 pos2 hf hg
    cases g with
    | zero =>
      have h1 : ¬ pos1 < len1 := by omega
      have h2 : len2 - pos2 = 0 := by omega
      simp [costF, h1, h2]
    | succ g =>
      simp only [costF]
      by_cases h1 : pos1 < len1
      · by_cases h2 : pos2 < len2
        · simp only [h1, h2, if_true]
          by_cases he : eqf pos1 pos2
          · simp only [he, if_true]
            exact ih g (pos1 + 1) (pos2 + 1) (by omega) (by omega)
          · simp only [he, Bool.false_eq_true, if_false]
            rw [ih g (pos1 + 1) pos2 (by omega) (by omega),
                ih g pos1 (pos2 + 1) (by omega) (by omega)]
        · simp [h1, h2]
      · simp [h1]

theorem cost_eq (eqf : Nat → Nat → Bool) (len1 len2 pos1 pos2 : Nat) :
    cost eqf len1 len2 pos1 pos2 =
      if pos1 < len1 then
        if pos2 < len2 then
          if eqf pos1 pos2 then
            cost eqf len1 len2 (pos1 + 1) (pos2 + 1)
          else
            1 + min (cost eqf len1 len2 (pos1 + 1) pos2)
                  (cost eqf len1 len2 pos1 (pos2 + 1))
        else len1 - pos1
      else len2 - pos2 := by
  have h0 : cost eqf len1 len2 pos1 pos2 =
      costF eqf len1 len2 ((len1 - pos1) + (len2 - pos2) + 1) pos1 pos2 :=
    costF_congr eqf len1 len2 _ _ pos1 pos2 (Nat.le_refl _) (Nat.le_succ _)
  rw [h0]
  simp only [costF]
  by_cases h1 : pos1 < len1
  · by_cases h2 : pos2 < len2
    · simp only [h1, h2, if_true]
      by_cases he : eqf pos1 pos2
      · simp only [he, if_true, cost]
        exact costF_congr eqf len1 len2 _ _ _ _ (by omega) (by omega)
      · simp only [he, Bool.false_eq_true, if_false, cost]
        rw [costF_congr eqf len1 len2 _ ((len1 - (pos1+1)) + (len2 - pos2))
              (pos1 + 1) pos2 (by omega) (by omega),
            costF_congr eqf len1 len2 _ ((len1 - pos1) + (len2 - (pos2+1)))
              pos1 (pos2 + 1) (by omega) (by omega)]
    · simp [h1, h2]
  · simp [h1]

/-- `compareUpToTail` is the cost shifted by the two direction bits. -/
theorem compareUpToTail_eq_four_mul_cost (eqf : Nat → Nat → Bool)
    (len1 len2 : Nat) : ∀ pos1 pos2,
    compareUpToTail eqf len1 len2 pos1 pos2 = 4 * cost eqf len1 len2 pos1 pos2 := by
  have main : ∀ N pos1 pos2, (len1 - pos1) + (len2 - pos2) ≤ N →
      compareUpToTail eqf len1 len2 pos1 pos2 = 4 * cost eqf len1 len2 pos1 pos2 := by
    intro N
    induction N with
    | zero =>
      intro pos1 pos2 h
      have h1 : ¬ pos1 < len1 := by omega
      rw [compareUpToTail_eq, cost_eq]
      simp [h1, Nat.mul_comm]
    | succ N ih =>
      intro pos1 pos2 h
      rw [compareUpToTail_eq, cost_eq]
      by_cases h1 : pos1 < len1
      · by_cases h2 : pos2 < len2
        · simp only [h1, h2, if_true]
          by_cases he : eqf pos1 pos2
          · simp only [he, if_true]
            exact ih (pos1 + 1) (pos2 + 1) (by omega)
          · simp only [he, Bool.false_eq_true, if_false]
            rw [ih (pos1 + 1) pos2 (by omega), ih pos1 (pos2 + 1) (by omega)]
            rcases Nat.le_total (cost eqf len1 len2 (pos1 + 1) pos2)
                (cost eqf len1 len2 pos1 (pos2 + 1)) with hle | hle
            · rw [Nat.min_eq_left hle, if_pos (by omega)]
              omega
            · rcases Nat.eq_or_lt_of_le hle with heq | hlt
              · rw [heq, Nat.min_self, if_pos (by omega)]
                omega
              · rw [Nat.min_eq_right hle, if_neg (by omega)]
                omega
        · simp [h1, h2, Nat.mul_comm]
      · simp [h1, Nat.mul_comm]
  intro pos1 pos2
  exact main ((len1 - pos1) + (len2 - pos2)) pos1 pos2 (Nat.le_refl _)

theorem saveStepsF_congr (eqf : Nat → Nat → Bool) (len1 len2 : Nat) :
    ∀ f g pos1 pos2, pos2 ≤ len2 → (len1 - pos1) + (len2 - pos2) ≤ f →
      (len1 - pos1) + (len2 - pos2) ≤ g →
      saveStepsF eqf len1 len2 f pos1 pos2 = saveStepsF eqf len1 len2 g pos1 pos2 := by
  intro f
  induction f with
  | zero =>
    intro g pos1 pos2 hp2 hf _
    have h1 : ¬ pos1 < len1 := by omega
    have h2 : len2 = pos2 := by omega
    cases g with
    | zero => rfl
    | succ g => simp [saveStepsF, h1, h2]
  | succ f ih =>
    intro g pos1 pos2 hp2 hf hg
    cases g with
    | zero =>
      have h1 : ¬ pos1 < len1 := by omega
      have h2 : len2 = pos2 := by omega
      simp [saveStepsF, h1, h2]
    | succ g =>
      simp only [saveStepsF]
      by_cases h1 : pos1 < len1
      · by_cases h2 : pos2 < len2
        · simp only [h1, h2, if_true]
          cases direction eqf len1 len2 pos1 pos2 with
          | EQ => rw [ih g (pos1 + 1) (pos2 + 1) (by omega) (by omega) (by omega)]
          | SKIP1 => rw [ih g (pos1 + 1) pos2 (by omega) (by omega) (by omega)]
          | SKIP2 => rw [ih g pos1 (pos2 + 1) (by omega) (by omega) (by omega)]
          | SKIP_ANY => rw [ih g pos1 (pos2 + 1) (by omega) (by omega) (by omega)]
        · simp [h1, h2]
      · simp [h1]

theorem saveSteps_eq (eqf : Nat → Nat → Bool) (len1 len2 pos1 pos2 : Nat)
    (hp2 : pos2 ≤ len2) :
    saveSteps eqf len1 len2 pos1 pos2 =
      if pos1 < len1 then
        if pos2 < len2 then
          match direction eqf len1 len2 pos1 pos2 with
          | Direction.EQ => DiffStep.eqS :: saveSteps eqf len1 len2 (pos1 + 1) (pos2 + 1)
          | Direction.SKIP1 => DiffStep.skipA 1 :: saveSteps eqf len1 len2 (pos1 + 1) pos2
          | Direction.SKIP2 => DiffStep.skipB 1 :: saveSteps eqf len1 len2 pos1 (pos2 + 1)
          | Direction.SKIP_ANY => DiffStep.skipB 1 :: saveSteps eqf len1 len2 pos1 (pos2 + 1)
        else [DiffStep.skipA (len1 - pos1)]
      else if len2 ≠ pos2 then [DiffStep.skipB (len2 - pos2)] else [] := by
  have h0 : saveSteps eqf len1 len2 pos1 pos2 =
      saveStepsF eqf len1 len2 ((len1 - pos1) + (len2 - pos2) + 1) pos1 pos2 :=
    saveStepsF_congr eqf len1 len2 _ _ pos1 pos2 hp2 (Nat.le_refl _) (Nat.le_succ _)
  rw [h0]
  simp only [saveStepsF]
  by_cases h1 : pos1 < len1
  · by_cases h2 : pos2 < len2
    · simp only [h1, h2, if_true]
      cases direction eqf len1 len2 pos1 pos2 with
      | EQ =>
        rw [show saveStepsF eqf len1 len2 ((len1 - pos1) + (len2 - pos2)) (pos1+1) (pos2+1) =
              saveSteps eqf len1 len2 (pos1+1) (pos2+1) from
            saveStepsF_congr eqf len1 len2 _ _ _ _ (by omega) (by omega) (by omega)]
      | SKIP1 =>
        rw [show saveStepsF eqf len1 len2 ((len1 - pos1) + (len2 - pos2)) (pos1+1) pos2 =
              saveSteps eqf len1 len2 (pos1+1) pos2 from
            saveStepsF_congr eqf len1 len2 _ _ _ _ (by omega) (by omega) (by omega)]
      | SKIP2 =>
        rw [show saveStepsF eqf len1 len2 ((len1 - pos1) + (len2 - pos2)) pos1 (pos2+1) =
              saveSteps eqf len1 len2 pos1 (pos2+1) from
            saveStepsF_congr eqf len1 len2 _ _ _ _ (by omega) (by omega) (by omega)]
      | SKIP_ANY =>
        rw [show saveStepsF eqf len1 len2 ((len1 - pos1) + (len2 - pos2)) pos1 (pos2+1) =
              saveSteps eqf len1 len2 pos1 (pos2+1) from
            saveStepsF_congr eqf len1 len2 _ _ _ _ (by omega) (by omega) (by omega)]
    · simp [h1, h2]
  · simp [h1]

/-- The `SaveResult` loop is the writer replaying the classification
stream it generates. -/
theorem saveLoopF_eq_runWriter (eqf : Nat → Nat → Bool) (len1 len2 : Nat) :
    ∀ fuel w, (len1 - w.pos1) + (len2 - w.pos2) ≤ fuel →
      saveLoopF eqf len1 len2 fuel w =
        runWriter w (saveStepsF eqf len1 len2 fuel w.pos1 w.pos2) := by
  intro fuel
  induction fuel with
  | zero => intro w _; rfl
  | succ fuel ih =>
    intro w hw
    simp only [saveLoopF, saveStepsF]
    by_cases h1 : w.pos1 < len1
    · by_cases h2 : w.pos2 < len2
      · simp only [h1, h2, if_true]
        cases direction eqf len1 len2 w.pos1 w.pos2 with
        | EQ =>
          rw [ih w.eqStep (by simp; omega), runWriter]
          simp
        | SKIP1 =>
          rw [ih (w.skip1 1) (by simp; omega), runWriter]
          simp
        | SKIP2 =>
          rw [ih (w.skip2 1) (by simp; omega), runWriter]
          simp
        | SKIP_ANY =>
          rw [ih (w.skip2 1) (by simp; omega), runWriter]
          simp
      · simp [h1, h2, runWriter]
    · simp only [h1, if_false]
      by_cases h2 : len2 ≠ w.pos2
      · simp [h2, runWriter]
      · simp [h2, runWriter]

theorem calculateDifference_eq_writerChunks (eqf : Nat → Nat → Bool)
    (len1 len2 : Nat) :
    calculateDifference eqf len1 len2 = writerChunks (saveSteps eqf len1 len2 0 0) := by
  unfold calculateDifference saveResult writerChunks saveSteps
  rw [saveLoopF_eq_runWriter eqf len1 len2 (len1 + len2) Writer.start (by simp [Writer.start])]
  have hw1 : Writer.start.pos1 = 0 := rfl
  have hw2 : Writer.start.pos2 = 0 := rfl
  rw [hw1, hw2,
    saveStepsF_congr eqf len1 len2 (len1 + len2) ((len1 - 0) + (len2 - 0)) 0 0
      (by omega) (by omega) (by omega)]

theorem validTrace_bounds (eqf : Nat → Nat → Bool) (len1 len2 : Nat) :
    ∀ tr i j, ValidTrace eqf len1 len2 i j tr → i ≤ len1 ∧ j ≤ len2 := by
  intro tr
  induction tr with
  | nil => intro i j h; exact ⟨Nat.le_of_eq h.1, Nat.le_of_eq h.2⟩
  | cons s r ih =>
    intro i j h
    cases s with
    | eqS => exact ⟨Nat.le_of_lt h.1, Nat.le_of_lt h.2.1⟩
    | skipA n =>
      have := ih _ _ h.2.2
      omega
    | skipB n =>
      have := ih _ _ h.2.2
      omega

/-- Reading a direction tag back through the unshifted costs. -/
theorem direction_EQ_iff (eqf : Nat → Nat → Bool) (len1 len2 pos1 pos2 : Nat) :
    direction eqf len1 len2 pos1 pos2 = Direction.EQ ↔ eqf pos1 pos2 = true := by
  unfold direction
  by_cases he : eqf pos1 pos2
  · simp [he]
  · simp only [he, Bool.false_eq_true, if_false]
    constructor
    · intro h
      exfalso
      split at h
      · exact absurd h (by simp)
      · split at h <;> exact absurd h (by simp)
    · simp

theorem cost_of_EQ (eqf : Nat → Nat → Bool) (len1 len2 pos1 pos2 : Nat)
    (h1 : pos1 < len1) (h2 : pos2 < len2) (he : eqf pos1 pos2 = true) :
    cost eqf len1 len2 pos1 pos2 = cost eqf len1 len2 (pos1 + 1) (pos2 + 1) := by
  rw [cost_eq]
  simp [h1, h2, he]

theorem cost_of_SKIP1 (eqf : Nat → Nat → Bool) (len1 len2 pos1 pos2 : Nat)
    (h1 : pos1 < len1) (h2 : pos2 < len2)
    (hd : direction eqf len1 len2 pos1 pos2 = Direction.SKIP1) :
    cost eqf len1 len2 pos1 pos2 = 1 + cost eqf len1 len2 (pos1 + 1) pos2 := by
  unfold direction at hd
  by_cases he : eqf pos1 pos2
  · simp [he] at hd
  · simp only [he, Bool.false_eq_true, if_false] at hd
    rw [compareUpToTail_eq_four_mul_cost, compareUpToTail_eq_four_mul_cost] at hd
    rw [cost_eq]
    simp only [h1, h2, he, Bool.false_eq_true, if_false, if_true]
    split at hd
    · exact absurd hd (by simp)
    · split at hd
      · rename_i hne hlt
        have : cost eqf len1 len2 (pos1 + 1) pos2 < cost eqf len1 len2 pos1 (pos2 + 1) := by
          omega
        rw [Nat.min_eq_left (Nat.le_of_lt this)]
      · simp at hd

theorem cost_of_SKIP2 (eqf : Nat → Nat → Bool) (len1 len2 pos1 pos2 : Nat)
    (h1 : pos1 < len1) (h2 : pos2 < len2)
    (hd : direction eqf len1 len2 pos1 pos2 = Direction.SKIP2 ∨
      direction eqf len1 len2 pos1 pos2 = Direction.SKIP_ANY) :
    cost eqf len1 len2 pos1 pos2 = 1 + cost eqf len1 len2 pos1 (pos2 + 1) := by
  unfold direction at hd
  by_cases he : eqf pos1 pos2
  · simp [he] at hd
  · simp only [he, Bool.false_eq_true, if_false] at hd
    rw [cost_eq]
    simp only [h1, h2, he, Bool.false_eq_true, if_false, if_true]
    rcases hd with hd | hd
    · rw [compareUpToTail_eq_four_mul_cost, compareUpToTail_eq_four_mul_cost] at hd
      split at hd
      · exact absurd hd (by simp)
      · split at hd
        · simp at hd
        · rename_i hne hnlt
          have : cost eqf len1 len2 pos1 (pos2 + 1) < cost eqf len1 len2 (pos1 + 1) pos2 := by
            omega
          rw [Nat.min_eq_right (Nat.le_of_lt this)]
    · rw [compareUpToTail_eq_four_mul_cost, compareUpToTail_eq_four_mul_cost] at hd
      split at hd
      · rename_i heq
        have : cost eqf len1 len2 (pos1 + 1) pos2 = cost eqf len1 len2 pos1 (pos2 + 1) := by
          omega
        rw [this, Nat.min_self]
      · split at hd <;> simp at hd

/-- The four unit-step Lipschitz bounds for the cost table: moving one cell
in either coordinate direction changes the cost by at most one. -/
theorem cost_adjacent (eqf : Nat → Nat → Bool) (len1 len2 : Nat) :
    ∀ N pos1 pos2, (len1 - pos1) + (len2 - pos2) ≤ N →
      (cost eqf len1 len2 pos1 pos2 ≤ cost eqf len1 len2 (pos1 + 1) pos2 + 1) ∧
      (cost eqf len1 len2 pos1 pos2 ≤ cost eqf len1 len2 pos1 (pos2 + 1) + 1) ∧
      (cost eqf len1 len2 (pos1 + 1) pos2 ≤ cost eqf len1 len2 pos1 pos2 + 1) ∧
      (cost eqf len1 len2 pos1 (pos2 + 1) ≤ cost eqf len1 len2 pos1 pos2 + 1) := by
  intro N
  induction N with
  | zero =>
    intro pos1 pos2 h
    have h1 : ¬ pos1 < len1 := by omega
    have h2 : len2 - pos2 = 0 := by omega
    have e0 : cost eqf len1 len2 pos1 pos2 = len2 - pos2 := by
      rw [cost_eq]; simp [h1]
    have e1 : cost eqf len1 len2 (pos1 + 1) pos2 = len2 - pos2 := by
      rw [cost_eq]; simp; omega
    have e2 : cost eqf len1 len2 pos1 (pos2 + 1) = len2 - (pos2 + 1) := by
      rw [cost_eq]; simp [h1]
    refine ⟨?_, ?_, ?_, ?_⟩ <;> rw [e0] <;> first
      | (rw [e1]; omega)
      | (rw [e2]; omega)
  | succ N ih =>
    intro pos1 pos2 hN
    by_cases h1 : pos1 < len1
    · by_cases h2 : pos2 < len2
      · -- interior cell
        by_cases he : eqf pos1 pos2
        · have e0 : cost eqf len1 len2 pos1 pos2 =
              cost eqf len1 len2 (pos1 + 1) (pos2 + 1) := cost_of_EQ _ _ _ _ _ h1 h2 he
          refine ⟨?_, ?_, ?_, ?_⟩
          · -- A1: cost (i,j) ≤ cost (i+1,j) + 1
            rw [e0]
            by_cases h1' : pos1 + 1 < len1
            · by_cases he' : eqf (pos1 + 1) pos2
              · rw [cost_of_EQ eqf len1 len2 (pos1 + 1) pos2 h1' h2 he']
                exact (ih (pos1 + 1) (pos2 + 1) (by omega)).1
              · rw [cost_eq eqf len1 len2 (pos1 + 1) pos2]
                simp only [h1', h2, he', Bool.false_eq_true, if_false, if_true]
                have a1 := (ih (pos1 + 1) (pos2 + 1) (by omega)).1
                have b2 := (ih (pos1 + 2) pos2 (by omega)).2.2.2
                have hx : pos1 + 1 + 1 = pos1 + 2 := rfl
                rw [hx] at a1 ⊢
                omega
            · have e1 : cost eqf len1 len2 (pos1 + 1) pos2 = len2 - pos2 := by
                rw [cost_eq]; simp [h1']
              have e2 : cost eqf len1 len2 (pos1 + 1) (pos2 + 1) = len2 - (pos2 + 1) := by
                rw [cost_eq]; simp [h1']
              rw [e1, e2]; omega
          · -- A2: cost (i,j) ≤ cost (i,j+1) + 1
            rw [e0]
            by_cases h2' : pos2 + 1 < len2
            · by_cases he' : eqf pos1 (pos2 + 1)
              · rw [cost_of_EQ eqf len1 len2 pos1 (pos2 + 1) h1 h2' he']
                exact (ih (pos1 + 1) (pos2 + 1) (by omega)).2.1
              · rw [cost_eq eqf len1 len2 pos1 (pos2 + 1)]
                simp only [h1, h2', he', Bool.false_eq_true, if_false, if_true]
                have a2 := (ih (pos1 + 1) (pos2 + 1) (by omega)).2.1
                have b1 := (ih pos1 (pos2 + 2) (by omega)).2.2.1
                have hx : pos2 + 1 + 1 = pos2 + 2 := rfl
                rw [hx] at a2 ⊢
                omega
            · have e1 : cost eqf len1 len2 pos1 (pos2 + 1) = len1 - pos1 := by
                rw [cost_eq]; simp [h1, h2']
              have e2 : cost eqf len1 len2 (pos1 + 1) (pos2 + 1) = len1 - (pos1 + 1) := by
                rw [cost_eq]
                simp [h2']
                intro h
                omega
              rw [e1, e2]; omega
          · -- B1: cost (i+1,j) ≤ cost (i,j) + 1
            rw [e0]
            by_cases h1' : pos1 + 1 < len1
            · have a2 := (ih (pos1 + 1) pos2 (by omega)).2.1
              exact a2
            · have e1 : cost eqf len1 len2 (pos1 + 1) pos2 = len2 - pos2 := by
                rw [cost_eq]; simp [h1']
              have e2 : cost eqf len1 len2 (pos1 + 1) (pos2 + 1) = len2 - (pos2 + 1) := by
                rw [cost_eq]; simp [h1']
              rw [e1, e2]; omega
          · -- B2: cost (i,j+1) ≤ cost (i,j) + 1
            rw [e0]
            have a1 := (ih pos1 (pos2 + 1) (by omega)).1
            exact a1
        · have e0 : cost eqf len1 len2 pos1 pos2 =
              1 + min (cost eqf len1 len2 (pos1 + 1) pos2)
                    (cost eqf len1 len2 pos1 (pos2 + 1)) := by
            rw [cost_eq]; simp [h1, h2, he]
          refine ⟨?_, ?_, ?_, ?_⟩
          · rw [e0]
            have := Nat.min_le_left (cost eqf len1 len2 (pos1 + 1) pos2)
              (cost eqf len1 len2 pos1 (pos2 + 1))
            omega
          · rw [e0]
            have := Nat.min_le_right (cost eqf len1 len2 (pos1 + 1) pos2)
              (cost eqf len1 len2 pos1 (pos2 + 1))
            omega
          · rw [e0]
            rcases Nat.le_total (cost eqf len1 len2 (pos1 + 1) pos2)
                (cost eqf len1 len2 pos1 (pos2 + 1)) with hle | hle
            · rw [Nat.min_eq_left hle]; omega
            · rw [Nat.min_eq_right hle]
              have a1 := (ih (pos1 + 1) pos2 (by omega)).2.1
              have b1 := (ih pos1 (pos2 + 1) (by omega)).2.2.1
              omega
          · rw [e0]
            rcases Nat.le_total (cost eqf len1 len2 (pos1 + 1) pos2)
                (cost eqf len1 len2 pos1 (pos2 + 1)) with hle | hle
            · rw [Nat.min_eq_left hle]
              have a2 := (ih pos1 (pos2 + 1) (by omega)).1
              have b2 := (ih (pos1 + 1) pos2 (by omega)).2.2.2
              omega
            · rw [Nat.min_eq_right hle]; omega
      · -- pos2 ≥ len2 : the cost is len1 - pos1 in this whole region
        have e0 : cost eqf len1 len2 pos1 pos2 = len1 - pos1 := by
          rw [cost_eq]; simp [h1, h2]
        have e1 : cost eqf len1 len2 (pos1 + 1) pos2 = len1 - (pos1 + 1) := by
          rw [cost_eq]
          simp [h2]
          intro h
          omega
        have e2 : cost eqf len1 len2 pos1 (pos2 + 1) = len1 - pos1 := by
          rw [cost_eq]
          have h2' : ¬ pos2 + 1 < len2 := by omega
          simp [h1, h2']
        refine ⟨?_, ?_, ?_, ?_⟩ <;> rw [e0] <;> first
          | (rw [e1]; omega)
          | (rw [e2]; omega)
    · -- pos1 ≥ len1 : the cost is len2 - pos2 in this whole region
      have e0 : cost eqf len1 len2 pos1 pos2 = len2 - pos2 := by
        rw [cost_eq]; simp [h1]
      have e1 : cost eqf len1 len2 (pos1 + 1) pos2 = len2 - pos2 := by
        rw [cost_eq]; simp; omega
      have e2 : cost eqf len1 len2 pos1 (pos2 + 1) = len2 - (pos2 + 1) := by
        rw [cost_eq]; simp [h1]
      refine ⟨?_, ?_, ?_, ?_⟩ <;> rw [e0] <;> first
        | (rw [e1]; omega)
        | (rw [e2]; omega)

theorem cost_le_skipA (eqf : Nat → Nat → Bool) (len1 len2 : Nat) (n : Nat) :
    ∀ pos1 pos2, cost eqf len1 len2 pos1 pos2 ≤ cost eqf len1 len2 (pos1 + n) pos2 + n := by
  induction n with
  | zero => intro pos1 pos2; simp
  | succ n ih =>
    intro pos1 pos2
    have h1 := (cost_adjacent eqf len1 len2 ((len1 - pos1) + (len2 - pos2)) pos1 pos2
      (Nat.le_refl _)).1
    have h2 := ih (pos1 + 1) pos2
    have : pos1 + 1 + n = pos1 + (n + 1) := by omega
    rw [this] at h2
    omega

theorem cost_le_skipB (eqf : Nat → Nat → Bool) (len1 len2 : Nat) (n : Nat) :
    ∀ pos1 pos2, cost eqf len1 len2 pos1 pos2 ≤ cost eqf len1 len2 pos1 (pos2 + n) + n := by
  induction n with
  | zero => intro pos1 pos2; simp
  | succ n ih =>
    intro pos1 pos2
    have h1 := (cost_adjacent eqf len1 len2 ((len1 - pos1) + (len2 - pos2)) pos1 pos2
      (Nat.le_refl _)).2.1
    have h2 := ih pos1 (pos2 + 1)
    have : pos2 + 1 + n = pos2 + (n + 1) := by omega
    rw [this] at h2
    omega

/-- Lower bound: every valid alignment of `A[i:]` with `B[j:]` performs at
least `cost i j` skip operations. -/
theorem cost_le_traceSkips (eqf : Nat → Nat → Bool) (len1 len2 : Nat) :
    ∀ tr pos1 pos2, ValidTrace eqf len1 len2 pos1 pos2 tr →
      cost eqf len1 len2 pos1 pos2 ≤ traceSkips tr := by
  intro tr
  induction tr with
  | nil =>
    intro pos1 pos2 h
    obtain ⟨h1, h2⟩ := h
    subst h1; subst h2
    rw [cost_eq]
    simp [traceSkips]
  | cons s r ih =>
    intro pos1 pos2 h
    cases s with
    | eqS =>
      obtain ⟨h1, h2, he, hr⟩ := h
      rw [cost_of_EQ eqf len1 len2 pos1 pos2 h1 h2 he]
      exact ih _ _ hr
    | skipA n =>
      obtain ⟨hn, hb, hr⟩ := h
      have := cost_le_skipA eqf len1 len2 n pos1 pos2
      have := ih _ _ hr
      simp only [traceSkips]
      omega
    | skipB n =>
      obtain ⟨hn, hb, hr⟩ := h
      have := cost_le_skipB eqf len1 len2 n pos1 pos2
      have := ih _ _ hr
      simp only [traceSkips]
      omega

/-- The stream emitted by `SaveResult` is a valid alignment. -/
theorem saveSteps_valid (eqf : Nat → Nat → Bool) (len1 len2 : Nat) :
    ∀ N pos1 pos2, (len1 - pos1) + (len2 - pos2) ≤ N → pos1 ≤ len1 → pos2 ≤ len2 →
      ValidTrace eqf len1 len2 pos1 pos2 (saveSteps eqf len1 len2 pos1 pos2) := by
  intro N
  induction N with
  | zero =>
    intro pos1 pos2 hN hp1 hp2
    have h1 : pos1 = len1 := by omega
    have h2 : pos2 = len2 := by omega
    rw [saveSteps_eq eqf len1 len2 pos1 pos2 hp2]
    subst h1; subst h2
    simp only [Nat.lt_irrefl, if_false, ne_eq, not_true_eq_false]
    exact ⟨rfl, rfl⟩
  | succ N ih =>
    intro pos1 pos2 hN hp1 hp2
    rw [saveSteps_eq eqf len1 len2 pos1 pos2 hp2]
    by_cases h1 : pos1 < len1
    · by_cases h2 : pos2 < len2
      · simp only [h1, h2, if_true]
        rcases hdir : direction eqf len1 len2 pos1 pos2 with _ | _ | _ | _
        · have he : eqf pos1 pos2 = true := (direction_EQ_iff eqf len1 len2 pos1 pos2).1 hdir
          exact ⟨h1, h2, he, ih (pos1 + 1) (pos2 + 1) (by omega) (by omega) (by omega)⟩
        · exact ⟨Nat.one_pos, by omega, ih (pos1 + 1) pos2 (by omega) (by omega) (by omega)⟩
        · exact ⟨Nat.one_pos, by omega, ih pos1 (pos2 + 1) (by omega) (by omega) (by omega)⟩
        · exact ⟨Nat.one_pos, by omega, ih pos1 (pos2 + 1) (by omega) (by omega) (by omega)⟩
      · simp only [h1, h2, if_true, if_false]
        exact ⟨by omega, by omega, by omega, by omega⟩
    · simp only [h1, if_false]
      by_cases h2 : len2 ≠ pos2
      · rw [if_pos h2]
        exact ⟨by omega, by omega, by omega, by omega⟩
      · rw [if_neg h2]
        exact ⟨by omega, by omega⟩

/-- The stream emitted by `SaveResult` performs exactly `cost` skips: the
walk along the stored direction tags realizes the optimum. -/
theorem traceSkips_saveSteps (eqf : Nat → Nat → Bool) (len1 len2 : Nat) :
    ∀ N pos1 pos2, (len1 - pos1) + (len2 - pos2) ≤ N → pos1 ≤ len1 → pos2 ≤ len2 →
      traceSkips (saveSteps eqf len1 len2 pos1 pos2) = cost eqf len1 len2 pos1 pos2 := by
  intro N
  induction N with
  | zero =>
    intro pos1 pos2 hN hp1 hp2
    have h1 : pos1 = len1 := by omega
    have h2 : pos2 = len2 := by omega
    rw [saveSteps_eq eqf len1 len2 pos1 pos2 hp2, cost_eq]
    subst h1; subst h2
    simp [traceSkips]
  | succ N ih =>
    intro pos1 pos2 hN hp1 hp2
    rw [saveSteps_eq eqf len1 len2 pos1 pos2 hp2]
    by_cases h1 : pos1 < len1
    · by_cases h2 : pos2 < len2
      · simp only [h1, h2, if_true]
        rcases hdir : direction eqf len1 len2 pos1 pos2 with _ | _ | _ | _
        · have he : eqf pos1 pos2 = true := (direction_EQ_iff eqf len1 len2 pos1 pos2).1 hdir
          simp only [traceSkips]
          rw [ih (pos1 + 1) (pos2 + 1) (by omega) (by omega) (by omega),
            cost_of_EQ eqf len1 len2 pos1 pos2 h1 h2 he]
        · simp only [traceSkips]
          rw [ih (pos1 + 1) pos2 (by omega) (by omega) (by omega),
            cost_of_SKIP1 eqf len1 len2 pos1 pos2 h1 h2 hdir]
        · simp only [traceSkips]
          rw [ih pos1 (pos2 + 1) (by omega) (by omega) (by omega),
            cost_of_SKIP2 eqf len1 len2 pos1 pos2 h1 h2 (Or.inl hdir)]
        · simp only [traceSkips]
          rw [ih pos1 (pos2 + 1) (by omega) (by omega) (by omega),
            cost_of_SKIP2 eqf len1 len2 pos1 pos2 h1 h2 (Or.inr hdir)]
      · simp only [h1, h2, if_true, if_false]
        rw [cost_eq]
        simp [h1, h2, traceSkips]
    · simp only [h1, if_false]
      rw [cost_eq]
      by_cases h2 : len2 ≠ pos2
      · simp [h1, h2, traceSkips]
      · simp [h1, h2, traceSkips]
        omega

/-- The shifted cell value, unshifted, is the least number of skips over all
valid alignments of the suffixes. -/
theorem compareUpToTail_isLeast (eqf : Nat → Nat → Bool) (len1 len2 pos1 pos2 : Nat)
    (hp1 : pos1 ≤ len1) (hp2 : pos2 ≤ len2) :
    IsLeast {n : Nat | ∃ tr, ValidTrace eqf len1 len2 pos1 pos2 tr ∧ traceSkips tr = n}
      (compareUpToTail eqf len1 len2 pos1 pos2 / 4) := by
  have hc : compareUpToTail eqf len1 len2 pos1 pos2 / 4 = cost eqf len1 len2 pos1 pos2 := by
    rw [compareUpToTail_eq_four_mul_cost]
    omega
  rw [hc]
  constructor
  · exact ⟨saveSteps eqf len1 len2 pos1 pos2,
      saveSteps_valid eqf len1 len2 _ pos1 pos2 (Nat.le_refl _) hp1 hp2,
      traceSkips_saveSteps eqf len1 len2 _ pos1 pos2 (Nat.le_refl _) hp1 hp2⟩
  · rintro n ⟨tr, htr, rfl⟩
    exact cost_le_traceSkips eqf len1 len2 tr pos1 pos2 htr

theorem mergeFrom_closed_irrel :
    ∀ (steps : List DiffStep) (b1 b2 b1' b2' i j : Nat),
      mergeFrom false b1 b2 i j steps = mergeFrom false b1' b2' i j steps := by
  intro steps
  cases steps with
  | nil => intro _ _ _ _ _ _; rfl
  | cons s r =>
    intro b1 b2 b1' b2' i j
    cases s <;> rfl

theorem runWriter_close_chunks :
    ∀ (steps : List DiffStep) (w : Writer),
      ((runWriter w steps).close).chunks =
        w.chunks ++ mergeFrom w.hasOpen w.pos1Begin w.pos2Begin w.pos1 w.pos2 steps := by
  intro steps
  induction steps with
  | nil =>
    rintro ⟨p1, p2, b1, b2, o, ch⟩
    cases o <;> simp [runWriter, Writer.close, Writer.flushChunk, mergeFrom]
  | cons s r ih =>
    rintro ⟨p1, p2, b1, b2, o, ch⟩
    cases s with
    | eqS =>
      cases o with
      | false =>
        have h1 : Writer.eqStep ⟨p1, p2, b1, b2, false, ch⟩ =
            ⟨p1 + 1, p2 + 1, b1, b2, false, ch⟩ := by
          simp [Writer.eqStep, Writer.flushChunk]
        rw [show runWriter (⟨p1, p2, b1, b2, false, ch⟩ : Writer) (DiffStep.eqS :: r) =
              runWriter (Writer.eqStep ⟨p1, p2, b1, b2, false, ch⟩) r from rfl, h1, ih]
        simp only [mergeFrom]
        rw [mergeFrom_closed_irrel r b1 b2 0 0 (p1 + 1) (p2 + 1)]
      | true =>
        have h1 : Writer.eqStep ⟨p1, p2, b1, b2, true, ch⟩ =
            ⟨p1 + 1, p2 + 1, b1, b2, false, ch ++ [⟨b1, b2, p1 - b1, p2 - b2⟩]⟩ := by
          simp [Writer.eqStep, Writer.flushChunk]
        rw [show runWriter (⟨p1, p2, b1, b2, true, ch⟩ : Writer) (DiffStep.eqS :: r) =
              runWriter (Writer.eqStep ⟨p1, p2, b1, b2, true, ch⟩) r from rfl, h1, ih]
        simp only [mergeFrom, List.append_assoc, List.singleton_append]
        rw [mergeFrom_closed_irrel r b1 b2 0 0 (p1 + 1) (p2 + 1)]
    | skipA n =>
      cases o with
      | false =>
        have h1 : Writer.skip1 ⟨p1, p2, b1, b2, false, ch⟩ n =
            ⟨p1 + n, p2, p1, p2, true, ch⟩ := by
          simp [Writer.skip1, Writer.startChunk]
        rw [show runWriter (⟨p1, p2, b1, b2, false, ch⟩ : Writer) (DiffStep.skipA n :: r) =
              runWriter (Writer.skip1 ⟨p1, p2, b1, b2, false, ch⟩ n) r from rfl, h1, ih]
        simp only [mergeFrom]
      | true =>
        have h1 : Writer.skip1 ⟨p1, p2, b1, b2, true, ch⟩ n =
            ⟨p1 + n, p2, b1, b2, true, ch⟩ := by
          simp [Writer.skip1, Writer.startChunk]
        rw [show runWriter (⟨p1, p2, b1, b2, true, ch⟩ : Writer) (DiffStep.skipA n :: r) =
              runWriter (Writer.skip1 ⟨p1, p2, b1, b2, true, ch⟩ n) r from rfl, h1, ih]
        simp only [mergeFrom]
    | skipB n =>
      cases o with
      | false =>
        have h1 : Writer.skip2 ⟨p1, p2, b1, b2, false, ch⟩ n =
            ⟨p1, p2 + n, p1, p2, true, ch⟩ := by
          simp [Writer.skip2, Writer.startChunk]
        rw [show runWriter (⟨p1, p2, b1, b2, false, ch⟩ : Writer) (DiffStep.skipB n :: r) =
              runWriter (Writer.skip2 ⟨p1, p2, b1, b2, false, ch⟩ n) r from rfl, h1, ih]
        simp only [mergeFrom]
      | true =>
        have h1 : Writer.skip2 ⟨p1, p2, b1, b2, true, ch⟩ n =
            ⟨p1, p2 + n, b1, b2, true, ch⟩ := by
          simp [Writer.skip2, Writer.startChunk]
        rw [show runWriter (⟨p1, p2, b1, b2, true, ch⟩ : Writer) (DiffStep.skipB n :: r) =
              runWriter (Writer.skip2 ⟨p1, p2, b1, b2, true, ch⟩ n) r from rfl, h1, ih]
        simp only [mergeFrom]

theorem writerChunks_eq_mergeFrom (steps : List DiffStep) :
    writerChunks steps = mergeFrom false 0 0 0 0 steps := by
  rw [writerChunks, runWriter_close_chunks]
  rfl

theorem covers_start_le (eqf : Nat → Nat → Bool) (e1 e2 : Nat) :
    ∀ cs i j, Covers eqf e1 e2 i j cs → i ≤ e1 ∧ j ≤ e2 := by
  intro cs
  cases cs with
  | nil => intro i j h; exact ⟨h.1, h.2.1⟩
  | cons c r =>
    intro i j h
    obtain ⟨h1, h2, _, _, h5, h6, _⟩ := h
    omega

/-- A covering of a region can absorb an aligned, pointwise-equal run of
positions in front of it. -/
theorem covers_gap_prepend (eqf : Nat → Nat → Bool) (e1 e2 : Nat) :
    ∀ cs i j p1 p2, i ≤ p1 → j ≤ p2 → p1 - i = p2 - j →
      (∀ k, i + k < p1 → eqf (i + k) (j + k) = true) →
      Covers eqf e1 e2 p1 p2 cs → Covers eqf e1 e2 i j cs := by
  intro cs
  cases cs with
  | nil =>
    intro i j p1 p2 hi hj halign hgap h
    obtain ⟨he1, he2, hlen, hg2⟩ := h
    refine ⟨by omega, by omega, by omega, ?_⟩
    intro k hk
    by_cases hkp : i + k < p1
    · exact hgap k hkp
    · have e1k : i + k = p1 + (k - (p1 - i)) := by omega
      have e2k : j + k = p2 + (k - (p1 - i)) := by omega
      rw [e1k, e2k]
      exact hg2 _ (by omega)
  | cons c r =>
    intro i j p1 p2 hi hj halign hgap h
    obtain ⟨h1, h2, h3, h4, h5, h6, h7⟩ := h
    refine ⟨by omega, by omega, by omega, ?_, h5, h6, h7⟩
    intro k hk
    by_cases hkp : i + k < p1
    · exact hgap k hkp
    · have e1k : i + k = p1 + (k - (p1 - i)) := by omega
      have e2k : j + k = p2 + (k - (p1 - i)) := by omega
      rw [e1k, e2k]
      exact h4 _ (by omega)

/-- Concatenating a covering of `[i..m)` with a covering of `[m..e)`. -/
theorem covers_append_region (eqf : Nat → Nat → Bool) (e1 e2 m1 m2 : Nat) :
    ∀ cs1 cs2 i j, Covers eqf m1 m2 i j cs1 → Covers eqf e1 e2 m1 m2 cs2 →
      Covers eqf e1 e2 i j (cs1 ++ cs2) := by
  intro cs1
  induction cs1 with
  | nil =>
    intro cs2 i j h1 h2
    obtain ⟨hi, hj, hlen, hgap⟩ := h1
    rw [List.nil_append]
    exact covers_gap_prepend eqf e1 e2 cs2 i j m1 m2 hi hj (by omega) hgap h2
  | cons c r ih =>
    intro cs2 i j h1 h2
    obtain ⟨hc1, hc2, hc3, hc4, hc5, hc6, hc7⟩ := h1
    have hm := covers_start_le eqf e1 e2 cs2 m1 m2 h2
    exact ⟨hc1, hc2, hc3, hc4, by omega, by omega, ih cs2 _ _ hc7 h2⟩

/-- The chunks the merger emits for a valid stream form an ordered covering
of the whole rectangle. -/
theorem mergeFrom_covers (eqf : Nat → Nat → Bool) (len1 len2 : Nat) :
    ∀ steps i j, ValidTrace eqf len1 len2 i j steps →
      (Covers eqf len1 len2 i j (mergeFrom false 0 0 i j steps) ∧
       ∀ b1 b2, b1 ≤ i → b2 ≤ j →
         Covers eqf len1 len2 b1 b2 (mergeFrom true b1 b2 i j steps)) := by
  intro steps
  induction steps with
  | nil =>
    intro i j h
    obtain ⟨h1, h2⟩ := h
    subst h1; subst h2
    constructor
    · exact ⟨Nat.le_refl _, Nat.le_refl _, by omega, fun k hk => absurd hk (by omega)⟩
    · intro b1 b2 hb1 hb2
      simp only [mergeFrom]
      dsimp only [Covers]
      refine ⟨Nat.le_refl _, Nat.le_refl _, by omega, fun k hk => absurd hk (by omega),
        by omega, by omega, ?_⟩
      have e1 : b1 + (i - b1) = i := by omega
      have e2 : b2 + (j - b2) = j := by omega
      rw [e1, e2]
      exact ⟨Nat.le_refl _, Nat.le_refl _, by omega, fun k hk => absurd hk (by omega)⟩
  | cons s r ih =>
    intro i j h
    cases s with
    | eqS =>
      obtain ⟨h1, h2, he, hr⟩ := h
      have ihc := (ih _ _ hr).1
      have hstep : Covers eqf len1 len2 i j (mergeFrom false 0 0 (i + 1) (j + 1) r) := by
        refine covers_gap_prepend eqf len1 len2 _ i j (i + 1) (j + 1)
          (by omega) (by omega) (by omega) ?_ ihc
        intro k hk
        have hk0 : k = 0 := by omega
        subst hk0
        simpa using he
      constructor
      · simpa [mergeFrom] using hstep
      · intro b1 b2 hb1 hb2
        simp only [mergeFrom]
        dsimp only [Covers]
        refine ⟨Nat.le_refl _, Nat.le_refl _, by omega,
          fun k hk => absurd hk (by omega), by omega, by omega, ?_⟩
        have e1 : b1 + (i - b1) = i := by omega
        have e2 : b2 + (j - b2) = j := by omega
        rw [e1, e2]
        exact hstep
    | skipA n =>
      obtain ⟨hn, hb, hr⟩ := h
      have hj := (validTrace_bounds eqf len1 len2 r _ _ hr).2
      constructor
      · simp only [mergeFrom]
        exact (ih _ _ hr).2 i j (by omega) (by omega)
      · intro b1 b2 hb1 hb2
        simp only [mergeFrom]
        exact (ih _ _ hr).2 b1 b2 (by omega) (by omega)
    | skipB n =>
      obtain ⟨hn, hb, hr⟩ := h
      constructor
      · simp only [mergeFrom]
        exact (ih _ _ hr).2 i j (by omega) (by omega)
      · intro b1 b2 hb1 hb2
        simp only [mergeFrom]
        exact (ih _ _ hr).2 b1 b2 (by omega) (by omega)

/-- `CalculateDifference` emits an ordered covering of the full rectangle:
chunks are ordered and non-overlapping, and all non-chunk positions are
aligned and equal. -/
theorem calculateDifference_covers (eqf : Nat → Nat → Bool) (len1 len2 : Nat) :
    Covers eqf len1 len2 0 0 (calculateDifference eqf len1 len2) := by
  rw [calculateDifference_eq_writerChunks, writerChunks_eq_mergeFrom]
  exact (mergeFrom_covers eqf len1 len2 (saveSteps eqf len1 len2 0 0) 0 0
    (saveSteps_valid eqf len1 len2 (len1 + len2) 0 0 (by omega) (by omega) (by omega))).1

theorem covers_chunksOrdered (eqf : Nat → Nat → Bool) (e1 e2 : Nat) :
    ∀ cs i j, Covers eqf e1 e2 i j cs → chunksOrdered cs = true := by
  intro cs
  induction cs with
  | nil => intro i j _; rfl
  | cons c r ih =>
    intro i j h
    obtain ⟨_, _, _, _, _, _, htail⟩ := h
    cases r with
    | nil => rfl
    | cons d r2 =>
      have hd1 := htail.1
      have hd2 := htail.2.1
      simp only [chunksOrdered, Bool.and_eq_true, decide_eq_true_eq]
      exact ⟨⟨hd1, hd2⟩, ih _ _ htail⟩

theorem covers_chunksAligned (eqf : Nat → Nat → Bool) (e1 e2 : Nat) :
    ∀ cs i j, Covers eqf e1 e2 i j cs →
      chunksAligned ((j : Int) - (i : Int)) cs = true := by
  intro cs
  induction cs with
  | nil => intro i j _; rfl
  | cons c r ih =>
    intro i j h
    obtain ⟨h1, h2, h3, _, _, _, htail⟩ := h
    simp only [chunksAligned, Bool.and_eq_true, decide_eq_true_eq]
    constructor
    · omega
    · have harg : ((j : Int) - (i : Int)) + (c.len2 : Int) - (c.len1 : Int) =
          ((c.pos2 + c.len2 : Nat) : Int) - ((c.pos1 + c.len1 : Nat) : Int) := by
        push_cast
        omega
      rw [harg]
      exact ih _ _ htail

/-- Chunk lengths of the merger output total exactly the skipped positions
of the classification stream. -/
theorem mergeFrom_totalLen :
    ∀ (steps : List DiffStep) (i j : Nat),
      (chunksTotalLen (mergeFrom false 0 0 i j steps) = traceSkips steps) ∧
      (∀ b1 b2, b1 ≤ i → b2 ≤ j →
        chunksTotalLen (mergeFrom true b1 b2 i j steps) =
          (i - b1) + (j - b2) + traceSkips steps) := by
  intro steps
  induction steps with
  | nil =>
    intro i j
    constructor
    · rfl
    · intro b1 b2 hb1 hb2
      simp [mergeFrom, chunksTotalLen, traceSkips]
  | cons s r ih =>
    intro i j
    cases s with
    | eqS =>
      constructor
      · simp only [mergeFrom, traceSkips]
        exact (ih (i + 1) (j + 1)).1
      · intro b1 b2 hb1 hb2
        simp only [mergeFrom, traceSkips, chunksTotalLen]
        rw [(ih (i + 1) (j + 1)).1]
    | skipA n =>
      constructor
      · simp only [mergeFrom, traceSkips]
        rw [(ih (i + n) j).2 i j (by omega) (by omega)]
        omega
      · intro b1 b2 hb1 hb2
        simp only [mergeFrom, traceSkips]
        rw [(ih (i + n) j).2 b1 b2 (by omega) (by omega)]
        omega
    | skipB n =>
      constructor
      · simp only [mergeFrom, traceSkips]
        rw [(ih i (j + n)).2 i j (by omega) (by omega)]
        omega
      · intro b1 b2 hb1 hb2
        simp only [mergeFrom, traceSkips]
        rw [(ih i (j + n)).2 b1 b2 (by omega) (by omega)]
        omega

/-- The total chunk length of the emitted diff equals the optimal cost. -/
theorem calculateDifference_totalLen (eqf : Nat → Nat → Bool) (len1 len2 : Nat) :
    chunksTotalLen (calculateDifference eqf len1 len2) = cost eqf len1 len2 0 0 := by
  rw [calculateDifference_eq_writerChunks, writerChunks_eq_mergeFrom,
    (mergeFrom_totalLen (saveSteps eqf len1 len2 0 0) 0 0).1]
  exact traceSkips_saveSteps eqf len1 len2 (len1 + len2) 0 0 (by omega) (by omega) (by omega)

/-- Every chunk emitted by the merger on a valid stream skips at least one
position: a `(0, 0)`-length chunk is never emitted. -/
theorem mergeFrom_nondegenerate (eqf : Nat → Nat → Bool) (len1 len2 : Nat) :
    ∀ (steps : List DiffStep) (i j : Nat), ValidTrace eqf len1 len2 i j steps →
      (∀ c ∈ mergeFrom false 0 0 i j steps, 1 ≤ c.len1 + c.len2) ∧
      (∀ b1 b2, b1 ≤ i → b2 ≤ j → b1 + b2 < i + j →
        ∀ c ∈ mergeFrom true b1 b2 i j steps, 1 ≤ c.len1 + c.len2) := by
  intro steps
  induction steps with
  | nil =>
    intro i j h
    constructor
    · intro c hc
      simp [mergeFrom] at hc
    · intro b1 b2 hb1 hb2 hlt c hc
      simp only [mergeFrom, List.mem_singleton] at hc
      subst hc
      simp only []
      omega
  | cons s r ih =>
    intro i j h
    cases s with
    | eqS =>
      obtain ⟨h1, h2, he, hr⟩ := h
      constructor
      · intro c hc
        simp only [mergeFrom] at hc
        exact (ih _ _ hr).1 c hc
      · intro b1 b2 hb1 hb2 hlt c hc
        simp only [mergeFrom, List.mem_cons] at hc
        rcases hc with rfl | hc
        · simp only []
          omega
        · exact (ih _ _ hr).1 c hc
    | skipA n =>
      obtain ⟨hn, hb, hr⟩ := h
      constructor
      · intro c hc
        simp only [mergeFrom] at hc
        exact (ih _ _ hr).2 i j (by omega) (by omega) (by omega) c hc
      · intro b1 b2 hb1 hb2 hlt c hc
        simp only [mergeFrom] at hc
        exact (ih _ _ hr).2 b1 b2 (by omega) (by omega) (by omega) c hc
    | skipB n =>
      obtain ⟨hn, hb, hr⟩ := h
      constructor
      · intro c hc
        simp only [mergeFrom] at hc
        exact (ih _ _ hr).2 i j (by omega) (by omega) (by omega) c hc
      · intro b1 b2 hb1 hb2 hlt c hc
        simp only [mergeFrom] at hc
        exact (ih _ _ hr).2 b1 b2 (by omega) (by omega) (by omega) c hc

theorem calculateDifference_nondegenerate (eqf : Nat → Nat → Bool) (len1 len2 : Nat) :
    ∀ c ∈ calculateDifference eqf len1 len2, 1 ≤ c.len1 + c.len2 := by
  rw [calculateDifference_eq_writerChunks, writerChunks_eq_mergeFrom]
  exact (mergeFrom_nondegenerate eqf len1 len2 (saveSteps eqf len1 len2 0 0) 0 0
    (saveSteps_valid eqf len1 len2 (len1 + len2) 0 0 (by omega) (by omega) (by omega))).1

theorem traceSkips_append (t1 t2 : List DiffStep) :
    traceSkips (t1 ++ t2) = traceSkips t1 + traceSkips t2 := by
  induction t1 with
  | nil => simp [traceSkips]
  | cons s r ih =>
    cases s <;> simp [traceSkips, ih] <;> omega

theorem traceSkips_eqRun (n : Nat) : traceSkips (eqRun n) = 0 := by
  induction n with
  | zero => rfl
  | succ n ih => simp [eqRun, traceSkips, ih]

theorem traceSkips_traceOfCovers (e1 : Nat) :
    ∀ cs i j, traceSkips (traceOfCovers e1 i j cs) = chunksTotalLen cs := by
  intro cs
  induction cs with
  | nil => intro i j; simp [traceOfCovers, traceSkips_eqRun, chunksTotalLen]
  | cons c r ih =>
    intro i j
    simp only [traceOfCovers, chunksTotalLen, traceSkips_append, traceSkips_eqRun, skipsOf]
    rw [ih]
    by_cases h1 : c.len1 = 0 <;> by_cases h2 : c.len2 = 0 <;>
      simp [h1, h2, traceSkips_append, traceSkips]

theorem validTrace_eqRun_prepend (eqf : Nat → Nat → Bool) (len1 len2 : Nat) :
    ∀ g i j t, (∀ k, k < g → eqf (i + k) (j + k) = true) →
      i + g ≤ len1 → j + g ≤ len2 →
      ValidTrace eqf len1 len2 (i + g) (j + g) t →
      ValidTrace eqf len1 len2 i j (eqRun g ++ t) := by
  intro g
  induction g with
  | zero => intro i j t _ _ _ h; simpa [eqRun] using h
  | succ g ih =>
    intro i j t hg hb1 hb2 h
    simp only [eqRun, List.cons_append]
    refine ⟨by omega, by omega, ?_, ?_⟩
    · have := hg 0 (by omega)
      simpa using this
    · apply ih (i + 1) (j + 1) t
      · intro k hk
        have := hg (k + 1) (by omega)
        have e1 : i + 1 + k = i + (k + 1) := by omega
        have e2 : j + 1 + k = j + (k + 1) := by omega
        rw [e1, e2]
        exact this
      · omega
      · omega
      · have e1 : i + 1 + g = i + (g + 1) := by omega
        have e2 : j + 1 + g = j + (g + 1) := by omega
        rw [e1, e2]
        exact h

theorem validTrace_skipsOf_prepend (eqf : Nat → Nat → Bool) (len1 len2 : Nat)
    (c : Chunk) (i j : Nat) (t : List DiffStep)
    (hb1 : i + c.len1 ≤ len1) (hb2 : j + c.len2 ≤ len2)
    (h : ValidTrace eqf len1 len2 (i + c.len1) (j + c.len2) t) :
    ValidTrace eqf len1 len2 i j (skipsOf c ++ t) := by
  unfold skipsOf
  by_cases h1 : c.len1 = 0
  · by_cases h2 : c.len2 = 0
    · simp only [h1, h2, if_true, List.nil_append]
      simpa [h1, h2] using h
    · simp only [h1, h2, if_true, if_false, List.nil_append, List.cons_append,
        List.nil_append]
      refine ⟨by omega, by omega, ?_⟩
      simpa [h1] using h
  · by_cases h2 : c.len2 = 0
    · simp only [h1, h2, if_true, if_false, List.append_nil, List.cons_append,
        List.nil_append]
      refine ⟨by omega, by omega, ?_⟩
      simpa [h2] using h
    · simp only [h1, h2, if_false, List.cons_append, List.nil_append]
      exact ⟨by omega, by omega, by omega, by omega, h⟩

theorem covers_traceOfCovers (eqf : Nat → Nat → Bool) (len1 len2 : Nat) :
    ∀ cs i j, Covers eqf len1 len2 i j cs →
      ValidTrace eqf len1 len2 i j (traceOfCovers len1 i j cs) := by
  intro cs
  induction cs with
  | nil =>
    intro i j h
    obtain ⟨hi, hj, hlen, hgap⟩ := h
    have hrw : traceOfCovers len1 i j [] = eqRun (len1 - i) ++ [] := by
      simp [traceOfCovers]
    rw [hrw]
    apply validTrace_eqRun_prepend eqf len1 len2 (len1 - i) i j []
    · intro k hk
      exact hgap k (by omega)
    · omega
    · omega
    · exact ⟨by omega, by omega⟩
  | cons c r ih =>
    intro i j h
    obtain ⟨h1, h2, h3, h4, h5, h6, htail⟩ := h
    simp only [traceOfCovers]
    apply validTrace_eqRun_prepend eqf len1 len2 (c.pos1 - i) i j
    · intro k hk
      exact h4 k (by omega)
    · omega
    · omega
    · have e1 : i + (c.pos1 - i) = c.pos1 := by omega
      have e2 : j + (c.pos1 - i) = c.pos2 := by omega
      rw [e1, e2]
      apply validTrace_skipsOf_prepend eqf len1 len2 c c.pos1 c.pos2
        _ (by omega) (by omega)
      exact ih _ _ htail

/-- Minimality of the emitted covering (skip-count cost): the sum of
`len1 + len2` over the emitted chunks is at most that of any other valid
chunk covering of the same input. -/
theorem calculateDifference_minimal (eqf : Nat → Nat → Bool) (len1 len2 : Nat)
    (D : List Chunk) (hD : Covers eqf len1 len2 0 0 D) :
    chunksTotalLen (calculateDifference eqf len1 len2) ≤ chunksTotalLen D := by
  rw [calculateDifference_totalLen]
  rw [← traceSkips_traceOfCovers len1 D 0 0]
  exact cost_le_traceSkips eqf len1 len2 _ 0 0 (covers_traceOfCovers eqf len1 len2 D 0 0 hD)

theorem mergeFrom_length :
    ∀ (steps : List DiffStep) (b1 b2 i j : Nat),
      ((mergeFrom false b1 b2 i j steps).length = skipRunsAux false steps) ∧
      ((mergeFrom true b1 b2 i j steps).length = 1 + skipRunsAux true steps) := by
  intro steps
  induction steps with
  | nil => intro b1 b2 i j; simp [mergeFrom, skipRunsAux]
  | cons s r ih =>
    intro b1 b2 i j
    cases s with
    | eqS =>
      simp only [mergeFrom, skipRunsAux, List.length_cons]
      exact ⟨(ih 0 0 (i + 1) (j + 1)).1, by rw [(ih 0 0 (i + 1) (j + 1)).1]; omega⟩
    | skipA n =>
      simp only [mergeFrom, skipRunsAux]
      exact ⟨(ih i j (i + n) j).2, (ih b1 b2 (i + n) j).2⟩
    | skipB n =>
      simp only [mergeFrom, skipRunsAux]
      exact ⟨(ih i j i (j + n)).2, (ih b1 b2 i (j + n)).2⟩

/-- The merger emits exactly one chunk per maximal run of skip steps. -/
theorem writerChunks_length (steps : List DiffStep) :
    (writerChunks steps).length = skipRuns steps := by
  rw [writerChunks_eq_mergeFrom, skipRuns]
  exact (mergeFrom_length steps 0 0 0 0).1

theorem scanCount_le (pred : Nat → Bool) :
    ∀ limit k, scanCount pred limit k ≤ limit := by
  intro limit
  induction limit with
  | zero => intro k; simp [scanCount]
  | succ n ih =>
    intro k
    simp only [scanCount]
    split
    · have := ih (k + 1)
      omega
    · omega

theorem scanCount_spec (pred : Nat → Bool) :
    ∀ limit k t, t < scanCount pred limit k → pred (k + t) = true := by
  intro limit
  induction limit with
  | zero => intro k t ht; simp [scanCount] at ht
  | succ n ih =>
    intro k t ht
    simp only [scanCount] at ht
    split at ht
    · rename_i hp
      cases t with
      | zero => simpa using hp
      | succ t =>
        have := ih (k + 1) t (by omega)
        have e : k + (t + 1) = k + 1 + t := by omega
        rw [e]
        exact this
    · omega

/-! ### Facts about the line table of an actual string -/

theorem lineEndPositions_lt (s : List Char) :
    ∀ x ∈ lineEndPositions s, x < s.length := by
  intro x hx
  have := List.of_mem_filter hx
  have hx2 := List.mem_of_mem_filter hx
  exact List.mem_range.1 hx2

theorem lineEndPositions_pairwise (s : List Char) :
    (lineEndPositions s).Pairwise (· < ·) :=
  List.Pairwise.filter _ (List.pairwise_lt_range s.length)

theorem lineStart_zero (le : LineEndsWrapper) : le.getLineStart 0 = 0 := rfl

theorem lineStart_succ (le : LineEndsWrapper) (k : Nat) :
    le.getLineStart (k + 1) = le.getLineEnd k := by
  simp [LineEndsWrapper.getLineStart]

theorem lineStart_top (s : List Char) :
    (LineEndsWrapper.ofString s).getLineStart (LineEndsWrapper.ofString s).length =
      s.length := by
  rw [LineEndsWrapper.length, lineStart_succ]
  simp [LineEndsWrapper.getLineEnd, LineEndsWrapper.ofString]

theorem ofString_ends_length (s : List Char) :
    (LineEndsWrapper.ofString s).ends.length = (lineEndPositions s).length := rfl

theorem lineEnd_le_strLen (s : List Char) (k : Nat)
    (hk : k ≤ (LineEndsWrapper.ofString s).ends.length) :
    (LineEndsWrapper.ofString s).getLineEnd k ≤ s.length := by
  unfold LineEndsWrapper.getLineEnd
  split
  · simp [LineEndsWrapper.ofString]
  · rename_i hne
    have hlen := ofString_ends_length s
    have hklt : k < (lineEndPositions s).length := by omega
    unfold LineEndsWrapper.getPosAfterNewLine
    have hg : (LineEndsWrapper.ofString s).ends.getD k 0 = (lineEndPositions s)[k] := by
      show (lineEndPositions s).getD k 0 = (lineEndPositions s)[k]
      exact List.getD_eq_getElem _ _ hklt
    rw [hg]
    have := lineEndPositions_lt s ((lineEndPositions s)[k]) (List.getElem_mem hklt)
    omega

theorem lineStart_le_succ (s : List Char) (k : Nat)
    (hk : k + 1 ≤ (LineEndsWrapper.ofString s).length) :
    (LineEndsWrapper.ofString s).getLineStart k ≤
      (LineEndsWrapper.ofString s).getLineStart (k + 1) := by
  rw [lineStart_succ]
  cases k with
  | zero => simp [lineStart_zero]
  | succ m =>
    rw [lineStart_succ]
    have hlen := ofString_ends_length s
    have hn : m + 1 ≤ (LineEndsWrapper.ofString s).ends.length := by
      simp [LineEndsWrapper.length] at hk
      omega
    by_cases htop : m + 1 = (LineEndsWrapper.ofString s).ends.length
    · rw [show (LineEndsWrapper.ofString s).getLineEnd (m + 1) =
          s.length from by simp [LineEndsWrapper.getLineEnd, htop, LineEndsWrapper.ofString]]
      exact lineEnd_le_strLen s m (by omega)
    · have hmlt : m + 1 < (lineEndPositions s).length := by omega
      have e1 : (LineEndsWrapper.ofString s).getLineEnd m =
          (lineEndPositions s)[m] + 1 := by
        unfold LineEndsWrapper.getLineEnd LineEndsWrapper.getPosAfterNewLine
        rw [if_neg (by omega)]
        show (lineEndPositions s).getD m 0 + 1 = _
        rw [List.getD_eq_getElem _ _ (by omega : m < (lineEndPositions s).length)]
      have e2 : (LineEndsWrapper.ofString s).getLineEnd (m + 1) =
          (lineEndPositions s)[m + 1] + 1 := by
        unfold LineEndsWrapper.getLineEnd LineEndsWrapper.getPosAfterNewLine
        rw [if_neg (by omega)]
        show (lineEndPositions s).getD (m + 1) 0 + 1 = _
        rw [List.getD_eq_getElem _ _ hmlt]
      rw [e1, e2]
      have hlt : (lineEndPositions s)[m] < (lineEndPositions s)[m + 1] := by
        have hp := lineEndPositions_pairwise s
        rw [List.pairwise_iff_getElem] at hp
        exact hp m (m + 1) (by omega) hmlt (by omega)
      omega

theorem lineStart_mono (s : List Char) :
    ∀ a b, a ≤ b → b ≤ (LineEndsWrapper.ofString s).length →
      (LineEndsWrapper.ofString s).getLineStart a ≤
        (LineEndsWrapper.ofString s).getLineStart b := by
  intro a b hab hb
  induction b with
  | zero =>
    have : a = 0 := by omega
    subst this
    exact Nat.le_refl _
  | succ m ih =>
    by_cases hcase : a = m + 1
    · subst hcase; exact Nat.le_refl _
    · have h1 := ih (by omega) (by omega)
      have h2 := lineStart_le_succ s m hb
      omega

theorem lineStart_le_strLen (s : List Char) (k : Nat)
    (hk : k ≤ (LineEndsWrapper.ofString s).length) :
    (LineEndsWrapper.ofString s).getLineStart k ≤ s.length := by
  have := lineStart_mono s k (LineEndsWrapper.ofString s).length hk (Nat.le_refl _)
  rw [lineStart_top] at this
  exact this

/-- What `lineEquals` guarantees: equal line length and pointwise equal
characters over the two line spans. -/
theorem lineEquals_spec (s1 s2 : List Char) (le1 le2 : LineEndsWrapper)
    (index1 index2 : Nat)
    (h : lineEquals s1 s2 le1 le2 index1 index2 = true) :
    (le1.getLineEnd index1 - le1.getLineStart index1 =
      le2.getLineEnd index2 - le2.getLineStart index2) ∧
    ∀ m, m < le1.getLineEnd index1 - le1.getLineStart index1 →
      charEq s1 s2 (le1.getLineStart index1 + m) (le2.getLineStart index2 + m) = true := by
  unfold lineEquals at h
  simp only [] at h
  split at h
  · exact absurd h (by simp)
  · rename_i hlen
    have hlen2 : le1.getLineEnd index1 - le1.getLineStart index1 =
        le2.getLineEnd index2 - le2.getLineStart index2 := by
      omega
    refine ⟨hlen2, ?_⟩
    intro m hm
    unfold compareSubstrings at h
    rw [List.all_eq_true] at h
    have := h m (List.mem_range.2 hm)
    simp only [decide_eq_true_eq] at this
    unfold charEq
    have e1 : le1.getLineStart index1 + m = m + le1.getLineStart index1 := by omega
    have e2 : le2.getLineStart index2 + m = m + le2.getLineStart index2 := by omega
    rw [e1, e2]
    exact this

/-- An aligned run of equal lines gives an aligned, pointwise-equal run of
characters between the corresponding line starts. -/
theorem line_gap_chars (s1 s2 : List Char) :
    ∀ g i j,
      (∀ k, k < g → lineEquals s1 s2 (LineEndsWrapper.ofString s1)
        (LineEndsWrapper.ofString s2) (i + k) (j + k) = true) →
      i + g ≤ (LineEndsWrapper.ofString s1).length →
      j + g ≤ (LineEndsWrapper.ofString s2).length →
      ((LineEndsWrapper.ofString s1).getLineStart (i + g) -
          (LineEndsWrapper.ofString s1).getLineStart i =
        (LineEndsWrapper.ofString s2).getLineStart (j + g) -
          (LineEndsWrapper.ofString s2).getLineStart j) ∧
      ∀ m, m < (LineEndsWrapper.ofString s1).getLineStart (i + g) -
          (LineEndsWrapper.ofString s1).getLineStart i →
        charEq s1 s2 ((LineEndsWrapper.ofString s1).getLineStart i + m)
          ((LineEndsWrapper.ofString s2).getLineStart j + m) = true := by
  intro g
  induction g with
  | zero =>
    intro i j _ _ _
    constructor
    · simp
    · intro m hm
      simp at hm
  | succ g ih =>
    intro i j hlines hb1 hb2
    have hline0 := lineEquals_spec s1 s2 _ _ i j (hlines 0 (by omega))
    have hstart1 : (LineEndsWrapper.ofString s1).getLineStart (i + 1) =
        (LineEndsWrapper.ofString s1).getLineEnd i := lineStart_succ _ i
    have hstart2 : (LineEndsWrapper.ofString s2).getLineStart (j + 1) =
        (LineEndsWrapper.ofString s2).getLineEnd j := lineStart_succ _ j
    have hm1 : (LineEndsWrapper.ofString s1).getLineStart i ≤
        (LineEndsWrapper.ofString s1).getLineStart (i + 1) :=
      lineStart_le_succ s1 i (by omega)
    have hm2 : (LineEndsWrapper.ofString s2).getLineStart j ≤
        (LineEndsWrapper.ofString s2).getLineStart (j + 1) :=
      lineStart_le_succ s2 j (by omega)
    have hm1g : (LineEndsWrapper.ofString s1).getLineStart (i + 1) ≤
        (LineEndsWrapper.ofString s1).getLineStart (i + 1 + g) :=
      lineStart_mono s1 (i + 1) (i + 1 + g) (by omega) (by omega)
    have hm2g : (LineEndsWrapper.ofString s2).getLineStart (j + 1) ≤
        (LineEndsWrapper.ofString s2).getLineStart (j + 1 + g) :=
      lineStart_mono s2 (j + 1) (j + 1 + g) (by omega) (by omega)
    have ihg := ih (i + 1) (j + 1)
      (fun k hk => by
        have := hlines (k + 1) (by omega)
        have e1 : i + (k + 1) = i + 1 + k := by omega
        have e2 : j + (k + 1) = j + 1 + k := by omega
        rw [e1, e2] at this
        exact this)
      (by omega) (by omega)
    -- the first line has equal length d on both sides
    have hd : (LineEndsWrapper.ofString s1).getLineStart (i + 1) -
        (LineEndsWrapper.ofString s1).getLineStart i =
        (LineEndsWrapper.ofString s2).getLineStart (j + 1) -
          (LineEndsWrapper.ofString s2).getLineStart j := by
      rw [hstart1, hstart2]
      omega
    have eidx1 : i + (g + 1) = i + 1 + g := by omega
    have eidx2 : j + (g + 1) = j + 1 + g := by omega
    rw [eidx1, eidx2]
    constructor
    · omega
    · intro m hm
      by_cases hcase : m < (LineEndsWrapper.ofString s1).getLineStart (i + 1) -
          (LineEndsWrapper.ofString s1).getLineStart i
      · have := hline0.2 m (by rw [hstart1] at hcase; omega)
        exact this
      · have e1 : (LineEndsWrapper.ofString s1).getLineStart i + m =
            (LineEndsWrapper.ofString s1).getLineStart (i + 1) +
              (m - ((LineEndsWrapper.ofString s1).getLineStart (i + 1) -
                (LineEndsWrapper.ofString s1).getLineStart i)) := by
          omega
        have e2 : (LineEndsWrapper.ofString s2).getLineStart j + m =
            (LineEndsWrapper.ofString s2).getLineStart (j + 1) +
              (m - ((LineEndsWrapper.ofString s1).getLineStart (i + 1) -
                (LineEndsWrapper.ofString s1).getLineStart i)) := by
          omega
        rw [e1, e2]
        exact ihg.2 _ (by omega)

/-! ### Transfers between coverings -/

/-- Shifting a covering of a subrange into absolute coordinates. -/
theorem covers_offset (eqf : Nat → Nat → Bool) (o1 o2 n1 n2 : Nat) :
    ∀ cs i j, Covers (fun a b => eqf (o1 + a) (o2 + b)) n1 n2 i j cs →
      Covers eqf (o1 + n1) (o2 + n2) (o1 + i) (o2 + j)
        (cs.map fun c => ⟨c.pos1 + o1, c.pos2 + o2, c.len1, c.len2⟩) := by
  intro cs
  induction cs with
  | nil =>
    intro i j h
    obtain ⟨hi, hj, hlen, hgap⟩ := h
    refine ⟨by omega, by omega, by omega, ?_⟩
    intro k hk
    have e1 : o1 + i + k = o1 + (i + k) := by omega
    have e2 : o2 + j + k = o2 + (j + k) := by omega
    rw [e1, e2]
    exact hgap k (by omega)
  | cons c r ih =>
    intro i j h
    obtain ⟨h1, h2, h3, h4, h5, h6, htail⟩ := h
    simp only [List.map_cons]
    dsimp only [Covers]
    refine ⟨by omega, by omega, by omega, ?_, by omega, by omega, ?_⟩
    · intro k hk
      have e1 : o1 + i + k = o1 + (i + k) := by omega
      have e2 : o2 + j + k = o2 + (j + k) := by omega
      rw [e1, e2]
      exact h4 k (by omega)
    · have e1 : c.pos1 + o1 + c.len1 = o1 + (c.pos1 + c.len1) := by omega
      have e2 : c.pos2 + o2 + c.len2 = o2 + (c.pos2 + c.len2) := by omega
      rw [e1, e2]
      exact ih _ _ htail

/-- Extending the region of a covering past its end by an aligned,
pointwise-equal run. -/
theorem covers_extend_end (eqf : Nat → Nat → Bool) (e1 e2 e1' e2' : Nat)
    (hee1 : e1 ≤ e1') (hee2 : e2 ≤ e2') (hal : e1' - e1 = e2' - e2)
    (hgap : ∀ k, e1 + k < e1' → eqf (e1 + k) (e2 + k) = true) :
    ∀ cs i j, Covers eqf e1 e2 i j cs → Covers eqf e1' e2' i j cs := by
  intro cs
  induction cs with
  | nil =>
    intro i j h
    obtain ⟨hi, hj, hlen, hg⟩ := h
    refine ⟨by omega, by omega, by omega, ?_⟩
    intro k hk
    by_cases hke : i + k < e1
    · exact hg k hke
    · have ex1 : i + k = e1 + (k - (e1 - i)) := by omega
      have ex2 : j + k = e2 + (k - (e1 - i)) := by omega
      rw [ex1, ex2]
      exact hgap _ (by omega)
  | cons c r ih =>
    intro i j h
    obtain ⟨h1, h2, h3, h4, h5, h6, htail⟩ := h
    exact ⟨h1, h2, h3, h4, by omega, by omega, ih _ _ htail⟩

/-- `AddChunk` with subrange offsets equals `AddChunk` without offsets on
the shifted chunk. -/
theorem tokenizingAddChunk_offset (s1 s2 : List Char) (le1 le2 : LineEndsWrapper)
    (o1 o2 : Nat) (c : Chunk) :
    tokenizingAddChunk s1 s2 le1 le2 o1 o2 c =
      tokenizingAddChunk s1 s2 le1 le2 0 0 ⟨c.pos1 + o1, c.pos2 + o2, c.len1, c.len2⟩ := by
  simp [tokenizingAddChunk]

theorem concatMap_addChunk_offset (s1 s2 : List Char) (le1 le2 : LineEndsWrapper)
    (o1 o2 : Nat) :
    ∀ cs, concatMapChunks (tokenizingAddChunk s1 s2 le1 le2 o1 o2) cs =
      concatMapChunks (tokenizingAddChunk s1 s2 le1 le2 0 0)
        (cs.map fun c => ⟨c.pos1 + o1, c.pos2 + o2, c.len1, c.len2⟩) := by
  intro cs
  induction cs with
  | nil => rfl
  | cons c r ih =>
    simp only [concatMapChunks, List.map_cons, ih, tokenizingAddChunk_offset s1 s2 le1 le2 o1 o2 c]

/-- Processing an absolute line-level covering through `AddChunk` yields a
character-level covering. -/
theorem concat_addChunk_covers (s1 s2 : List Char) :
    ∀ cs i j,
      Covers (fun a b => lineEquals s1 s2 (LineEndsWrapper.ofString s1) (LineEndsWrapper.ofString s2) a b)
        (LineEndsWrapper.ofString s1).length (LineEndsWrapper.ofString s2).length i j cs →
      Covers (charEq s1 s2) s1.length s2.length
        ((LineEndsWrapper.ofString s1).getLineStart i) ((LineEndsWrapper.ofString s2).getLineStart j)
        (concatMapChunks (tokenizingAddChunk s1 s2 (LineEndsWrapper.ofString s1) (LineEndsWrapper.ofString s2) 0 0) cs) := by
  intro cs
  induction cs with
  | nil =>
    intro i j h
    obtain ⟨hi, hj, hlen, hgap⟩ := h
    have hjg : j + ((LineEndsWrapper.ofString s1).length - i) = (LineEndsWrapper.ofString s2).length := by omega
    have hgc := line_gap_chars s1 s2 ((LineEndsWrapper.ofString s1).length - i) i j
      (fun k hk => hgap k (by omega)) (by omega) (by omega)
    have hig : i + ((LineEndsWrapper.ofString s1).length - i) = (LineEndsWrapper.ofString s1).length := by omega
    rw [hig, hjg, lineStart_top, lineStart_top] at hgc
    have hgc1 := hgc.1
    have hsi := lineStart_le_strLen s1 i hi
    have hsj := lineStart_le_strLen s2 j hj
    refine ⟨hsi, hsj, by omega, ?_⟩
    intro k hk
    exact hgc.2 k (by omega)
  | cons c r ih =>
    intro i j h
    obtain ⟨h1, h2, h3, h4, h5, h6, htail⟩ := h
    -- character coordinates of the chunk
    have hcp1m : (LineEndsWrapper.ofString s1).getLineStart c.pos1 ≤
        (LineEndsWrapper.ofString s1).getLineStart (c.pos1 + c.len1) :=
      lineStart_mono s1 c.pos1 (c.pos1 + c.len1) (by omega) h5
    have hcp2m : (LineEndsWrapper.ofString s2).getLineStart c.pos2 ≤
        (LineEndsWrapper.ofString s2).getLineStart (c.pos2 + c.len2) :=
      lineStart_mono s2 c.pos2 (c.pos2 + c.len2) (by omega) h6
    have hm1s : (LineEndsWrapper.ofString s1).getLineStart (c.pos1 + c.len1) ≤ s1.length :=
      lineStart_le_strLen s1 _ h5
    have hm2s : (LineEndsWrapper.ofString s2).getLineStart (c.pos2 + c.len2) ≤ s2.length :=
      lineStart_le_strLen s2 _ h6
    -- the gap of equal lines before the chunk, at character level
    have hgc := line_gap_chars s1 s2 (c.pos1 - i) i j
      (fun k hk => h4 k (by omega)) (by omega) (by omega)
    have hig : i + (c.pos1 - i) = c.pos1 := by omega
    have hjg : j + (c.pos1 - i) = c.pos2 := by omega
    rw [hig, hjg] at hgc
    have hgc1 := hgc.1
    have hstim : (LineEndsWrapper.ofString s1).getLineStart i ≤ (LineEndsWrapper.ofString s1).getLineStart c.pos1 :=
      lineStart_mono s1 i c.pos1 h1 (by omega)
    have hstjm : (LineEndsWrapper.ofString s2).getLineStart j ≤ (LineEndsWrapper.ofString s2).getLineStart c.pos2 :=
      lineStart_mono s2 j c.pos2 h2 (by omega)
    -- the chunks AddChunk emits for this line chunk cover its char region
    have hhead : Covers (charEq s1 s2)
        ((LineEndsWrapper.ofString s1).getLineStart (c.pos1 + c.len1)) ((LineEndsWrapper.ofString s2).getLineStart (c.pos2 + c.len2))
        ((LineEndsWrapper.ofString s1).getLineStart c.pos1) ((LineEndsWrapper.ofString s2).getLineStart c.pos2)
        (tokenizingAddChunk s1 s2 (LineEndsWrapper.ofString s1) (LineEndsWrapper.ofString s2) 0 0 c) := by
      rw [show tokenizingAddChunk s1 s2 (LineEndsWrapper.ofString s1) (LineEndsWrapper.ofString s2) 0 0 c =
        (if (LineEndsWrapper.ofString s1).getLineStart (c.pos1 + c.len1) - (LineEndsWrapper.ofString s1).getLineStart c.pos1 <
              CHUNK_LEN_LIMIT ∧
            (LineEndsWrapper.ofString s2).getLineStart (c.pos2 + c.len2) - (LineEndsWrapper.ofString s2).getLineStart c.pos2 <
              CHUNK_LEN_LIMIT then
          (tokensDiff s1 ((LineEndsWrapper.ofString s1).getLineStart c.pos1)
              ((LineEndsWrapper.ofString s1).getLineStart (c.pos1 + c.len1) - (LineEndsWrapper.ofString s1).getLineStart c.pos1)
              s2 ((LineEndsWrapper.ofString s2).getLineStart c.pos2)
              ((LineEndsWrapper.ofString s2).getLineStart (c.pos2 + c.len2) - (LineEndsWrapper.ofString s2).getLineStart c.pos2)).map
            fun d => ⟨d.pos1 + (LineEndsWrapper.ofString s1).getLineStart c.pos1,
              d.pos2 + (LineEndsWrapper.ofString s2).getLineStart c.pos2, d.len1, d.len2⟩
        else [⟨(LineEndsWrapper.ofString s1).getLineStart c.pos1, (LineEndsWrapper.ofString s2).getLineStart c.pos2,
          (LineEndsWrapper.ofString s1).getLineStart (c.pos1 + c.len1) - (LineEndsWrapper.ofString s1).getLineStart c.pos1,
          (LineEndsWrapper.ofString s2).getLineStart (c.pos2 + c.len2) - (LineEndsWrapper.ofString s2).getLineStart c.pos2⟩])
        from by simp [tokenizingAddChunk]]
      split
      · -- nested token-level diff
        have hnest := calculateDifference_covers
          (fun a b => charEq s1 s2 ((LineEndsWrapper.ofString s1).getLineStart c.pos1 + a)
            ((LineEndsWrapper.ofString s2).getLineStart c.pos2 + b))
          ((LineEndsWrapper.ofString s1).getLineStart (c.pos1 + c.len1) - (LineEndsWrapper.ofString s1).getLineStart c.pos1)
          ((LineEndsWrapper.ofString s2).getLineStart (c.pos2 + c.len2) - (LineEndsWrapper.ofString s2).getLineStart c.pos2)
        have hshift := covers_offset (charEq s1 s2)
          ((LineEndsWrapper.ofString s1).getLineStart c.pos1) ((LineEndsWrapper.ofString s2).getLineStart c.pos2) _ _ _ 0 0 hnest
        rw [Nat.add_zero, Nat.add_zero] at hshift
        have e1 : (LineEndsWrapper.ofString s1).getLineStart c.pos1 +
            ((LineEndsWrapper.ofString s1).getLineStart (c.pos1 + c.len1) - (LineEndsWrapper.ofString s1).getLineStart c.pos1) =
            (LineEndsWrapper.ofString s1).getLineStart (c.pos1 + c.len1) := by omega
        have e2 : (LineEndsWrapper.ofString s2).getLineStart c.pos2 +
            ((LineEndsWrapper.ofString s2).getLineStart (c.pos2 + c.len2) - (LineEndsWrapper.ofString s2).getLineStart c.pos2) =
            (LineEndsWrapper.ofString s2).getLineStart (c.pos2 + c.len2) := by omega
        rw [e1, e2] at hshift
        exact hshift
      · -- chunk emitted verbatim
        dsimp only [Covers]
        refine ⟨Nat.le_refl _, Nat.le_refl _, by omega, fun k hk => absurd hk (by omega),
          by omega, by omega, by omega, by omega, by omega, ?_⟩
        intro k hk
        exact absurd hk (by omega)
    -- prepend the gap, then append the coverings of the remaining chunks
    have hheadgap : Covers (charEq s1 s2)
        ((LineEndsWrapper.ofString s1).getLineStart (c.pos1 + c.len1)) ((LineEndsWrapper.ofString s2).getLineStart (c.pos2 + c.len2))
        ((LineEndsWrapper.ofString s1).getLineStart i) ((LineEndsWrapper.ofString s2).getLineStart j)
        (tokenizingAddChunk s1 s2 (LineEndsWrapper.ofString s1) (LineEndsWrapper.ofString s2) 0 0 c) :=
      covers_gap_prepend (charEq s1 s2) _ _ _
        ((LineEndsWrapper.ofString s1).getLineStart i) ((LineEndsWrapper.ofString s2).getLineStart j)
        ((LineEndsWrapper.ofString s1).getLineStart c.pos1) ((LineEndsWrapper.ofString s2).getLineStart c.pos2)
        hstim hstjm (by omega) (fun k hk => hgc.2 k (by omega)) hhead
    simp only [concatMapChunks]
    exact covers_append_region (charEq s1 s2) s1.length s2.length
      ((LineEndsWrapper.ofString s1).getLineStart (c.pos1 + c.len1)) ((LineEndsWrapper.ofString s2).getLineStart (c.pos2 + c.len2))
      _ _ _ _ hheadgap (ih _ _ htail)

/-- The pipeline below the narrowing step, for any narrowing amounts `p`
(common prefix) and `q` (common suffix) that really are common: the final
chunk list is a character-level covering. -/
theorem pipeline_covers_general (s1 s2 : List Char) (p q : Nat)
    (hp : ∀ k, k < p → lineEquals s1 s2 (LineEndsWrapper.ofString s1) (LineEndsWrapper.ofString s2) k k = true)
    (hq : ∀ t, t < q → lineEquals s1 s2 (LineEndsWrapper.ofString s1) (LineEndsWrapper.ofString s2)
      ((LineEndsWrapper.ofString s1).length - t - 1) ((LineEndsWrapper.ofString s2).length - t - 1) = true)
    (hpq1 : p + q ≤ (LineEndsWrapper.ofString s1).length) (hpq2 : p + q ≤ (LineEndsWrapper.ofString s2).length) :
    Covers (charEq s1 s2) s1.length s2.length 0 0
      (concatMapChunks (tokenizingAddChunk s1 s2 (LineEndsWrapper.ofString s1) (LineEndsWrapper.ofString s2) p p)
        (calculateDifference
          (fun a b => lineEquals s1 s2 (LineEndsWrapper.ofString s1) (LineEndsWrapper.ofString s2) (a + p) (b + p))
          ((LineEndsWrapper.ofString s1).length - q - p) ((LineEndsWrapper.ofString s2).length - q - p))) := by
  have hfn : (fun a b => lineEquals s1 s2 (LineEndsWrapper.ofString s1) (LineEndsWrapper.ofString s2) (a + p) (b + p)) =
      (fun a b => lineEquals s1 s2 (LineEndsWrapper.ofString s1) (LineEndsWrapper.ofString s2) (p + a) (p + b)) := by
    funext a b
    rw [Nat.add_comm a p, Nat.add_comm b p]
  rw [hfn]
  have hcov0 := calculateDifference_covers
    (fun a b => lineEquals s1 s2 (LineEndsWrapper.ofString s1) (LineEndsWrapper.ofString s2) (p + a) (p + b))
    ((LineEndsWrapper.ofString s1).length - q - p) ((LineEndsWrapper.ofString s2).length - q - p)
  have hsh := covers_offset (lineEquals s1 s2 (LineEndsWrapper.ofString s1) (LineEndsWrapper.ofString s2)) p p
    ((LineEndsWrapper.ofString s1).length - q - p) ((LineEndsWrapper.ofString s2).length - q - p) _ 0 0 hcov0
  rw [Nat.add_zero] at hsh
  have hpre := covers_gap_prepend (lineEquals s1 s2 (LineEndsWrapper.ofString s1) (LineEndsWrapper.ofString s2))
    (p + ((LineEndsWrapper.ofString s1).length - q - p)) (p + ((LineEndsWrapper.ofString s2).length - q - p)) _ 0 0 p p
    (Nat.zero_le _) (Nat.zero_le _) (by omega)
    (fun k hk => by simpa using hp k (by omega)) hsh
  have he1 : p + ((LineEndsWrapper.ofString s1).length - q - p) = (LineEndsWrapper.ofString s1).length - q := by omega
  have he2 : p + ((LineEndsWrapper.ofString s2).length - q - p) = (LineEndsWrapper.ofString s2).length - q := by omega
  rw [he1, he2] at hpre
  have hsufgap : ∀ k, ((LineEndsWrapper.ofString s1).length - q) + k < (LineEndsWrapper.ofString s1).length →
      lineEquals s1 s2 (LineEndsWrapper.ofString s1) (LineEndsWrapper.ofString s2)
        (((LineEndsWrapper.ofString s1).length - q) + k) (((LineEndsWrapper.ofString s2).length - q) + k) = true := by
    intro k hk
    have ht := hq (q - 1 - k) (by omega)
    have e1 : ((LineEndsWrapper.ofString s1).length - q) + k = (LineEndsWrapper.ofString s1).length - (q - 1 - k) - 1 := by omega
    have e2 : ((LineEndsWrapper.ofString s2).length - q) + k = (LineEndsWrapper.ofString s2).length - (q - 1 - k) - 1 := by omega
    rw [e1, e2]
    exact ht
  have hext := covers_extend_end (lineEquals s1 s2 (LineEndsWrapper.ofString s1) (LineEndsWrapper.ofString s2))
    ((LineEndsWrapper.ofString s1).length - q) ((LineEndsWrapper.ofString s2).length - q) (LineEndsWrapper.ofString s1).length (LineEndsWrapper.ofString s2).length
    (by omega) (by omega) (by omega) hsufgap _ 0 0 hpre
  have hfinal := concat_addChunk_covers s1 s2 _ 0 0 hext
  rw [lineStart_zero, lineStart_zero] at hfinal
  rw [concatMap_addChunk_offset s1 s2 (LineEndsWrapper.ofString s1) (LineEndsWrapper.ofString s2) p p]
  exact hfinal

theorem commonPrefixLength_le (eqf : Nat → Nat → Bool) (len1 len2 : Nat) :
    commonPrefixLength eqf len1 len2 ≤ min len1 len2 :=
  scanCount_le _ _ 0

theorem commonSuffixLength_le (eqf : Nat → Nat → Bool) (len1 len2 p : Nat) :
    commonSuffixLength eqf len1 len2 p ≤ min (len1 - p) (len2 - p) :=
  scanCount_le _ _ 0

theorem commonPrefixLength_spec (eqf : Nat → Nat → Bool) (len1 len2 : Nat) :
    ∀ k, k < commonPrefixLength eqf len1 len2 → eqf k k = true := by
  intro k hk
  simpa using scanCount_spec _ _ 0 k hk

theorem commonSuffixLength_spec (eqf : Nat → Nat → Bool) (len1 len2 p : Nat) :
    ∀ t, t < commonSuffixLength eqf len1 len2 p →
      eqf (len1 - t - 1) (len2 - t - 1) = true := by
  intro t ht
  simpa using scanCount_spec _ _ 0 t ht

/-- The chunk list of `LiveEdit::CompareStrings` is a character-level
covering: ordered, non-overlapping, in-bounds, with all non-chunk positions
aligned and equal. -/
theorem compareStrings_covers (s1 s2 : List Char) :
    Covers (charEq s1 s2) s1.length s2.length 0 0 (compareStrings s1 s2) := by
  unfold compareStrings
  dsimp only
  split
  · apply pipeline_covers_general s1 s2
    · intro k hk
      have := commonPrefixLength_spec
        (fun index1 index2 => lineEquals s1 s2 (LineEndsWrapper.ofString s1) (LineEndsWrapper.ofString s2) index1 index2)
        (LineEndsWrapper.ofString s1).length (LineEndsWrapper.ofString s2).length k hk
      simpa using this
    · intro t ht
      have := commonSuffixLength_spec
        (fun index1 index2 => lineEquals s1 s2 (LineEndsWrapper.ofString s1) (LineEndsWrapper.ofString s2) index1 index2)
        (LineEndsWrapper.ofString s1).length (LineEndsWrapper.ofString s2).length _ t ht
      simpa using this
    · have h1 := commonPrefixLength_le
        (fun index1 index2 => lineEquals s1 s2 (LineEndsWrapper.ofString s1) (LineEndsWrapper.ofString s2) index1 index2)
        (LineEndsWrapper.ofString s1).length (LineEndsWrapper.ofString s2).length
      have h2 := commonSuffixLength_le
        (fun index1 index2 => lineEquals s1 s2 (LineEndsWrapper.ofString s1) (LineEndsWrapper.ofString s2) index1 index2)
        (LineEndsWrapper.ofString s1).length (LineEndsWrapper.ofString s2).length
        (commonPrefixLength
          (fun index1 index2 => lineEquals s1 s2 (LineEndsWrapper.ofString s1) (LineEndsWrapper.ofString s2) index1 index2)
          (LineEndsWrapper.ofString s1).length (LineEndsWrapper.ofString s2).length)
      omega
    · have h1 := commonPrefixLength_le
        (fun index1 index2 => lineEquals s1 s2 (LineEndsWrapper.ofString s1) (LineEndsWrapper.ofString s2) index1 index2)
        (LineEndsWrapper.ofString s1).length (LineEndsWrapper.ofString s2).length
      have h2 := commonSuffixLength_le
        (fun index1 index2 => lineEquals s1 s2 (LineEndsWrapper.ofString s1) (LineEndsWrapper.ofString s2) index1 index2)
        (LineEndsWrapper.ofString s1).length (LineEndsWrapper.ofString s2).length
        (commonPrefixLength
          (fun index1 index2 => lineEquals s1 s2 (LineEndsWrapper.ofString s1) (LineEndsWrapper.ofString s2) index1 index2)
          (LineEndsWrapper.ofString s1).length (LineEndsWrapper.ofString s2).length)
      omega
  · have h00 := pipeline_covers_general s1 s2 0 0
      (fun k hk => absurd hk (by omega)) (fun t ht => absurd ht (by omega))
      (by omega) (by omega)
    simp only [Nat.add_zero, Nat.sub_zero] at h00
    exact h00

theorem compareStringsNoNarrow_covers (s1 s2 : List Char) :
    Covers (charEq s1 s2) s1.length s2.length 0 0 (compareStringsNoNarrow s1 s2) := by
  unfold compareStringsNoNarrow
  dsimp only
  have h00 := pipeline_covers_general s1 s2 0 0
    (fun k hk => absurd hk (by omega)) (fun t ht => absurd ht (by omega))
    (by omega) (by omega)
  simp only [Nat.add_zero, Nat.sub_zero] at h00
  exact h00

/-! ### Applying a covering reconstructs the second string -/

theorem slice_length (l : List Char) (i m : Nat) (him : i ≤ m) (hm : m ≤ l.length) :
    (slice l i m).length = m - i := by
  unfold slice
  rw [List.length_take, List.length_drop]
  omega

theorem drop_eq_slice_append (l : List Char) (i m : Nat) (him : i ≤ m) :
    l.drop i = slice l i m ++ l.drop m := by
  unfold slice
  conv_lhs => rw [← List.take_append_drop (m - i) (l.drop i)]
  rw [List.drop_drop, show i + (m - i) = m from by omega]

theorem slice_eq_of_pointwise (A B : List Char) (i j m1 m2 : Nat)
    (him : i ≤ m1) (hm1 : m1 ≤ A.length) (hjm : j ≤ m2) (hm2 : m2 ≤ B.length)
    (hlen : m1 - i = m2 - j)
    (hpt : ∀ k, k < m1 - i → charEq A B (i + k) (j + k) = true) :
    slice A i m1 = slice B j m2 := by
  apply List.ext_getElem
  · rw [slice_length A i m1 him hm1, slice_length B j m2 hjm hm2, hlen]
  · intro k hk1 hk2
    rw [slice_length A i m1 him hm1] at hk1
    have hc := hpt k (by omega)
    unfold charEq at hc
    rw [List.getD_eq_getElem A ' ' (show i + k < A.length by omega),
      List.getD_eq_getElem B ' ' (show j + k < B.length by omega)] at hc
    have heq := eq_of_beq hc
    simp only [slice, List.getElem_take, List.getElem_drop]
    exact heq

theorem drop_eq_of_pointwise (A B : List Char) (i j : Nat)
    (hi : i ≤ A.length) (hj : j ≤ B.length)
    (hlen : A.length - i = B.length - j)
    (hpt : ∀ k, k < A.length - i → charEq A B (i + k) (j + k) = true) :
    A.drop i = B.drop j := by
  apply List.ext_getElem
  · rw [List.length_drop, List.length_drop, hlen]
  · intro k hk1 hk2
    rw [List.length_drop] at hk1
    have hc := hpt k (by omega)
    unfold charEq at hc
    rw [List.getD_eq_getElem A ' ' (show i + k < A.length by omega),
      List.getD_eq_getElem B ' ' (show j + k < B.length by omega)] at hc
    have heq := eq_of_beq hc
    simp only [List.getElem_drop]
    exact heq

/-- Applying any character-level covering of `A` and `B` to `A`
reconstructs `B` (from position `j` on). -/
theorem covers_apply (A B : List Char) :
    ∀ cs i j, Covers (charEq A B) A.length B.length i j cs →
      applyChunks A B i cs = B.drop j := by
  intro cs
  induction cs with
  | nil =>
    intro i j h
    obtain ⟨hi, hj, hlen, hgap⟩ := h
    simp only [applyChunks]
    exact drop_eq_of_pointwise A B i j hi hj hlen (fun k hk => hgap k (by omega))
  | cons c r ih =>
    intro i j h
    obtain ⟨h1, h2, h3, h4, h5, h6, htail⟩ := h
    simp only [applyChunks]
    rw [ih _ _ htail]
    rw [drop_eq_slice_append B j c.pos2 h2,
      drop_eq_slice_append B c.pos2 (c.pos2 + c.len2) (by omega)]
    rw [slice_eq_of_pointwise A B i j c.pos1 c.pos2 h1 (by omega) h2 (by omega) h3
      (fun k hk => h4 k (by omega))]
    rw [List.append_assoc]

theorem coversB_iff (eqf : Nat → Nat → Bool) (e1 e2 : Nat) :
    ∀ cs i j, coversB eqf e1 e2 i j cs = true ↔ Covers eqf e1 e2 i j cs := by
  intro cs
  induction cs with
  | nil =>
    intro i j
    simp only [coversB, Covers, Bool.and_eq_true, decide_eq_true_eq, List.all_eq_true,
      List.mem_range]
    constructor
    · rintro ⟨⟨⟨hi, hj⟩, hlen⟩, hgap⟩
      exact ⟨hi, hj, hlen, fun k hk => hgap k (by omega)⟩
    · rintro ⟨hi, hj, hlen, hgap⟩
      exact ⟨⟨⟨hi, hj⟩, hlen⟩, fun k hk => hgap k (by omega)⟩
  | cons c r ih =>
    intro i j
    simp only [coversB, Covers, Bool.and_eq_true, decide_eq_true_eq, List.all_eq_true,
      List.mem_range]
    constructor
    · rintro ⟨⟨⟨⟨⟨⟨h1, h2⟩, h3⟩, h4⟩, h5⟩, h6⟩, h7⟩
      exact ⟨h1, h2, h3, fun k hk => h4 k (by omega), h5, h6, (ih _ _).1 h7⟩
    · rintro ⟨h1, h2, h3, h4, h5, h6, h7⟩
      exact ⟨⟨⟨⟨⟨⟨h1, h2⟩, h3⟩, fun k hk => h4 k (by omega)⟩, h5⟩, h6⟩, (ih _ _).2 h7⟩

/-- A covering only inspects its equality view inside the region. -/
theorem covers_congr (eqf eqf2 : Nat → Nat → Bool) (e1 e2 : Nat)
    (hfg : ∀ a b, a < e1 → b < e2 → eqf a b = eqf2 a b) :
    ∀ cs i j, Covers eqf e1 e2 i j cs → Covers eqf2 e1 e2 i j cs := by
  intro cs
  induction cs with
  | nil =>
    intro i j h
    obtain ⟨hi, hj, hlen, hgap⟩ := h
    refine ⟨hi, hj, hlen, ?_⟩
    intro k hk
    rw [← hfg _ _ (by omega) (by omega)]
    exact hgap k hk
  | cons c r ih =>
    intro i j h
    obtain ⟨h1, h2, h3, h4, h5, h6, htail⟩ := h
    have hm := covers_start_le eqf e1 e2 r _ _ htail
    refine ⟨h1, h2, h3, ?_, h5, h6, ih _ _ htail⟩
    intro k hk
    rw [← hfg _ _ (by omega) (by omega)]
    exact h4 k hk

theorem slice_getD (l : List Char) (st len a : Nat) (ha : a < len)
    (hb : st + len ≤ l.length) :
    (slice l st (st + len)).getD a ' ' = l.getD (st + a) ' ' := by
  have hlen : (slice l st (st + len)).length = len := by
    rw [slice_length l st (st + len) (by omega) hb]
    omega
  rw [List.getD_eq_getElem _ ' ' (by omega),
    List.getD_eq_getElem l ' ' (show st + a < l.length by omega)]
  simp only [slice, List.getElem_take, List.getElem_drop]

/-! ### The claims -/

/-- C1: for every pair of input texts `A` and `B`, applying the chunk list
returned by `LiveEdit::CompareStrings` to `A` — replacing, in order, each
chunk's span `[pos1, pos1+len1)` of `A` by the span `[pos2, pos2+len2)` of
`B` and leaving every position of `A` outside all chunks unchanged —
reconstructs exactly `B`. -/
theorem C1_compareStrings_reconstructs (s1 s2 : List Char) :
    applyChunks s1 s2 0 (compareStrings s1 s2) = s2 := by
  have h := covers_apply s1 s2 (compareStrings s1 s2) 0 0 (compareStrings_covers s1 s2)
  simpa using h

/-- C2, counterexample to the claimed covering minimality under the spec's
chunk cost `Σ max(len1,1) + max(len2,1)`: for the input `A = [a, m, b]`,
`B = [b, m, a]`, the covering `[(0,0,1,1), (2,2,1,1)]` is valid (it
transforms `A` into `B`) and has spec-cost `4`, strictly below the
spec-cost `6` of the emitted covering `[(0,0,0,2), (1,3,2,0)]`. -/
theorem C2_counterexample :
    Covers (charEq ['a', 'm', 'b'] ['b', 'm', 'a']) 3 3 0 0
      [⟨0, 0, 1, 1⟩, ⟨2, 2, 1, 1⟩] ∧
    specChunkCost [⟨0, 0, 1, 1⟩, ⟨2, 2, 1, 1⟩] <
      specChunkCost (calculateDifference (charEq ['a', 'm', 'b'] ['b', 'm', 'a']) 3 3) :=
  ⟨(coversB_iff _ 3 3 [⟨0, 0, 1, 1⟩, ⟨2, 2, 1, 1⟩] 0 0).1 (by decide), by decide⟩

/-- C2 (amended): the value computed by `Differencer::CompareUpToTail(i, j)`,
shifted right by the 2 direction bits, is the least number of skip
operations over all valid alignments of `A[i:]` with `B[j:]`; and, with a
covering's cost measured as its total number of skipped positions
`Σ (len1 + len2)`, the emitted chunk covering costs exactly the DP value at
`(0, 0)` and no more than any other valid chunk covering transforming `A`
into `B`. (Under the spec's per-chunk cost `max(len1,1) + max(len2,1)` the
emitted covering is not always minimal.) -/
theorem C2_amended_minimality (eqf : Nat → Nat → Bool) (len1 len2 pos1 pos2 : Nat)
    (hp1 : pos1 ≤ len1) (hp2 : pos2 ≤ len2) :
    IsLeast {n : Nat | ∃ tr, ValidTrace eqf len1 len2 pos1 pos2 tr ∧ traceSkips tr = n}
      (compareUpToTail eqf len1 len2 pos1 pos2 / 4) ∧
    chunksTotalLen (calculateDifference eqf len1 len2) = cost eqf len1 len2 0 0 ∧
    ∀ D, Covers eqf len1 len2 0 0 D →
      chunksTotalLen (calculateDifference eqf len1 len2) ≤ chunksTotalLen D :=
  ⟨compareUpToTail_isLeast eqf len1 len2 pos1 pos2 hp1 hp2,
   calculateDifference_totalLen eqf len1 len2,
   fun D hD => calculateDifference_minimal eqf len1 len2 D hD⟩

/-- Witness for C2 (amended) at a concrete input. -/
theorem C2_amended_minimality_witness :
    IsLeast {n : Nat |
        ∃ tr, ValidTrace (charEq ['a', 'm', 'b'] ['b', 'm', 'a']) 3 3 0 0 tr ∧
          traceSkips tr = n}
      (compareUpToTail (charEq ['a', 'm', 'b'] ['b', 'm', 'a']) 3 3 0 0 / 4) ∧
    chunksTotalLen (calculateDifference (charEq ['a', 'm', 'b'] ['b', 'm', 'a']) 3 3) ≤
      chunksTotalLen [⟨0, 0, 1, 1⟩, ⟨2, 2, 1, 1⟩] :=
  ⟨(C2_amended_minimality (charEq ['a', 'm', 'b'] ['b', 'm', 'a']) 3 3 0 0
      (by omega) (by omega)).1,
   (C2_amended_minimality (charEq ['a', 'm', 'b'] ['b', 'm', 'a']) 3 3 0 0
      (by omega) (by omega)).2.2 [⟨0, 0, 1, 1⟩, ⟨2, 2, 1, 1⟩]
     ((coversB_iff _ 3 3 [⟨0, 0, 1, 1⟩, ⟨2, 2, 1, 1⟩] 0 0).1 (by decide))⟩

/-- C3, counterexample: with both elements unequal (`len1 = len2 = 1`), the
cell `(0, 0)` reached by the reconstruction carries the tie tag
`SKIP_ANY` (`SKIP_EITHER`), yet the reconstruction's first step is a
"skip B" step (advancing B's index), not the claimed "skip A". -/
theorem C3_counterexample :
    direction (fun _ _ => false) 1 1 0 0 = Direction.SKIP_ANY ∧
    saveSteps (fun _ _ => false) 1 1 0 0 = [DiffStep.skipB 1, DiffStep.skipA 1] :=
  ⟨by decide, by decide⟩

/-- C3 (amended): for every input and every cell reached during path
reconstruction whose direction tag is `SKIP_ANY` (a cost tie), the
reconstruction in `Differencer::SaveResult` advances B's index and emits a
"skip B" step (the `SKIP_ANY` case falls through to the `SKIP2` case). -/
theorem C3_amended_skip_any_walks_as_skipB (eqf : Nat → Nat → Bool)
    (len1 len2 pos1 pos2 : Nat) (h1 : pos1 < len1) (h2 : pos2 < len2)
    (hd : direction eqf len1 len2 pos1 pos2 = Direction.SKIP_ANY) :
    saveSteps eqf len1 len2 pos1 pos2 =
      DiffStep.skipB 1 :: saveSteps eqf len1 len2 pos1 (pos2 + 1) := by
  rw [saveSteps_eq eqf len1 len2 pos1 pos2 (by omega)]
  simp [h1, h2, hd]

/-- Witness for C3 (amended) at a concrete input. -/
theorem C3_amended_witness :
    saveSteps (fun _ _ => false) 1 1 0 0 =
      DiffStep.skipB 1 :: saveSteps (fun _ _ => false) 1 1 0 1 :=
  C3_amended_skip_any_walks_as_skipB (fun _ _ => false) 1 1 0 0
    (by decide) (by decide) (by decide)

/-- C4, counterexample: on the texts `"m\nz\n"` and
`"x\nm\nz\ny\nz\n"`, the pipeline with `NarrowDownInput` returns
`[(0,0,0,2), (2,4,0,4)]` while the identical pipeline with the narrowing
step omitted returns `[(0,0,0,2), (4,6,0,4)]`: trimming changes the output
chunk list (both lists are valid and minimal, but different). -/
theorem C4_counterexample :
    compareStrings ['m', char_nl, 'z', char_nl]
        ['x', char_nl, 'm', char_nl, 'z', char_nl, 'y', char_nl, 'z', char_nl] ≠
      compareStringsNoNarrow ['m', char_nl, 'z', char_nl]
        ['x', char_nl, 'm', char_nl, 'z', char_nl, 'y', char_nl, 'z', char_nl] := by
  decide

/-- C4 (amended): the narrowing step preserves correctness but not the
exact output: both the pipeline with `NarrowDownInput` and the pipeline
with the narrowing step omitted produce chunk lists that reconstruct the
second text when applied to the first, but the two chunk lists are not
always identical. -/
theorem C4_amended_both_reconstruct (s1 s2 : List Char) :
    applyChunks s1 s2 0 (compareStrings s1 s2) = s2 ∧
    applyChunks s1 s2 0 (compareStringsNoNarrow s1 s2) = s2 := by
  constructor
  · have h := covers_apply s1 s2 (compareStrings s1 s2) 0 0 (compareStrings_covers s1 s2)
    simpa using h
  · have h := covers_apply s1 s2 (compareStringsNoNarrow s1 s2) 0 0
      (compareStringsNoNarrow_covers s1 s2)
    simpa using h

/-- C5, counterexample: the nested character-granularity run performed by
`TokenizingLineArrayCompareOutput::AddChunk` does not include the
PrefixSuffixTrimmer stage.  On the spans `"mz"` and `"xmzyz"` (one line
each, both lengths below the threshold), the code emits the nested chunks
`[(0,0,0,1), (2,3,0,2)]` while the claim's trimmed nested run would emit
`[(0,0,0,1), (1,2,0,2)]`. -/
theorem C5_counterexample :
    tokenizingAddChunk ['m', 'z'] ['x', 'm', 'z', 'y', 'z']
        (LineEndsWrapper.ofString ['m', 'z'])
        (LineEndsWrapper.ofString ['x', 'm', 'z', 'y', 'z']) 0 0 ⟨0, 0, 1, 1⟩ ≠
      tokenizingAddChunkSpec ['m', 'z'] ['x', 'm', 'z', 'y', 'z']
        (LineEndsWrapper.ofString ['m', 'z'])
        (LineEndsWrapper.ofString ['x', 'm', 'z', 'y', 'z']) 0 0 ⟨0, 0, 1, 1⟩ := by
  decide

/-- C5 (amended): for every line-level chunk, if both of its character
lengths are strictly below the threshold `CHUNK_LEN_LIMIT = 800`, the chunk
is replaced in the output by the chunks of a nested character-granularity
run of DiffEngine + ChunkMerger (with no trimming stage) restricted to the
chunk's two character spans, each nested chunk's offsets shifted by the
chunk's absolute character starts — and that nested run reconstructs the
chunk's second span from its first; if either character length is at least
the threshold, the chunk is emitted verbatim as one single chunk. -/
theorem C5_amended_addChunk (s1 s2 : List Char) (le1 le2 : LineEndsWrapper)
    (o1 o2 : Nat) (c : Chunk) (cp1 cp2 cl1 cl2 : Nat)
    (hcp1 : cp1 = le1.getLineStart (c.pos1 + o1))
    (hcp2 : cp2 = le2.getLineStart (c.pos2 + o2))
    (hcl1 : cl1 = le1.getLineStart (c.pos1 + o1 + c.len1) - cp1)
    (hcl2 : cl2 = le2.getLineStart (c.pos2 + o2 + c.len2) - cp2) :
    (cl1 < CHUNK_LEN_LIMIT ∧ cl2 < CHUNK_LEN_LIMIT →
      tokenizingAddChunk s1 s2 le1 le2 o1 o2 c =
        (tokensDiff s1 cp1 cl1 s2 cp2 cl2).map
          fun d => ⟨d.pos1 + cp1, d.pos2 + cp2, d.len1, d.len2⟩) ∧
    (¬ (cl1 < CHUNK_LEN_LIMIT ∧ cl2 < CHUNK_LEN_LIMIT) →
      tokenizingAddChunk s1 s2 le1 le2 o1 o2 c = [⟨cp1, cp2, cl1, cl2⟩]) ∧
    (cp1 + cl1 ≤ s1.length → cp2 + cl2 ≤ s2.length →
      applyChunks (slice s1 cp1 (cp1 + cl1)) (slice s2 cp2 (cp2 + cl2)) 0
        (tokensDiff s1 cp1 cl1 s2 cp2 cl2) = slice s2 cp2 (cp2 + cl2)) := by
  refine ⟨?_, ?_, ?_⟩
  · intro h
    subst hcl1; subst hcl2; subst hcp1; subst hcp2
    simp only [tokenizingAddChunk]
    rw [if_pos h]
  · intro h
    subst hcl1; subst hcl2; subst hcp1; subst hcp2
    simp only [tokenizingAddChunk]
    rw [if_neg h]
  · intro hb1 hb2
    have hA : (slice s1 cp1 (cp1 + cl1)).length = cl1 := by
      rw [slice_length _ _ _ (by omega) hb1]
      omega
    have hB : (slice s2 cp2 (cp2 + cl2)).length = cl2 := by
      rw [slice_length _ _ _ (by omega) hb2]
      omega
    have h0 := calculateDifference_covers
      (fun index1 index2 =>
        s1.getD (cp1 + index1) ' ' == s2.getD (cp2 + index2) ' ') cl1 cl2
    have hcong := covers_congr _
      (charEq (slice s1 cp1 (cp1 + cl1)) (slice s2 cp2 (cp2 + cl2))) cl1 cl2
      (fun a b ha hb => by
        show (s1.getD (cp1 + a) ' ' == s2.getD (cp2 + b) ' ') = _
        unfold charEq
        rw [slice_getD s1 cp1 cl1 a ha hb1, slice_getD s2 cp2 cl2 b hb hb2])
      _ 0 0 h0
    have hcov : Covers
        (charEq (slice s1 cp1 (cp1 + cl1)) (slice s2 cp2 (cp2 + cl2)))
        (slice s1 cp1 (cp1 + cl1)).length (slice s2 cp2 (cp2 + cl2)).length 0 0
        (tokensDiff s1 cp1 cl1 s2 cp2 cl2) := by
      rw [hA, hB]
      exact hcong
    have happ := covers_apply _ _ _ 0 0 hcov
    simpa using happ

/-- Witness for C5 (amended) at concrete inputs: the nested branch on the
spans `"mz"`, `"xmzyz"`, and the verbatim branch for a chunk whose
character lengths reach the threshold. -/
theorem C5_amended_addChunk_witness :
    (tokenizingAddChunk ['m', 'z'] ['x', 'm', 'z', 'y', 'z']
        (LineEndsWrapper.ofString ['m', 'z'])
        (LineEndsWrapper.ofString ['x', 'm', 'z', 'y', 'z']) 0 0 ⟨0, 0, 1, 1⟩ =
      (tokensDiff ['m', 'z'] 0 2 ['x', 'm', 'z', 'y', 'z'] 0 5).map
        fun d => ⟨d.pos1 + 0, d.pos2 + 0, d.len1, d.len2⟩) ∧
    (applyChunks (slice ['m', 'z'] 0 (0 + 2)) (slice ['x', 'm', 'z', 'y', 'z'] 0 (0 + 5)) 0
        (tokensDiff ['m', 'z'] 0 2 ['x', 'm', 'z', 'y', 'z'] 0 5) =
      slice ['x', 'm', 'z', 'y', 'z'] 0 (0 + 5)) ∧
    (tokenizingAddChunk ['m', 'z'] ['x', 'm', 'z', 'y', 'z'] ⟨[], 900⟩ ⟨[], 900⟩ 0 0
        ⟨0, 0, 1, 1⟩ = [⟨0, 0, 900, 900⟩]) :=
  ⟨(C5_amended_addChunk ['m', 'z'] ['x', 'm', 'z', 'y', 'z']
      (LineEndsWrapper.ofString ['m', 'z'])
      (LineEndsWrapper.ofString ['x', 'm', 'z', 'y', 'z']) 0 0 ⟨0, 0, 1, 1⟩
      0 0 2 5 (by decide) (by decide) (by decide) (by decide)).1 (by decide),
   (C5_amended_addChunk ['m', 'z'] ['x', 'm', 'z', 'y', 'z']
      (LineEndsWrapper.ofString ['m', 'z'])
      (LineEndsWrapper.ofString ['x', 'm', 'z', 'y', 'z']) 0 0 ⟨0, 0, 1, 1⟩
      0 0 2 5 (by decide) (by decide) (by decide) (by decide)).2.2
     (by decide) (by decide),
   (C5_amended_addChunk ['m', 'z'] ['x', 'm', 'z', 'y', 'z'] ⟨[], 900⟩ ⟨[], 900⟩ 0 0
      ⟨0, 0, 1, 1⟩ 0 0 900 900 (by decide) (by decide) (by decide) (by decide)).2.1
     (by decide)⟩

/-- C6: in the final chunk list returned by `LiveEdit::CompareStrings` for
any pair of input texts, chunks are ordered and non-overlapping on both
sides: each chunk's end (`pos + len`) on either side is at most the next
chunk's start on that side. -/
theorem C6_chunks_ordered (s1 s2 : List Char) :
    chunksOrdered (compareStrings s1 s2) = true :=
  covers_chunksOrdered (charEq s1 s2) s1.length s2.length
    (compareStrings s1 s2) 0 0 (compareStrings_covers s1 s2)

/-- C7: the chunk merger (`ResultWriter`): on an equal step, any open chunk
is first closed and emitted with start positions equal to the pending start
cursors and lengths equal to the current-minus-pending cursor differences,
and then both cursors advance by one with no chunk open; and every maximal
run of skip steps (of any mix of kinds) with no intervening equal step
produces exactly one emitted chunk, never two. -/
theorem C7_merger_behavior :
    (∀ w : Writer, w.hasOpen = true →
      w.eqStep = ⟨w.pos1 + 1, w.pos2 + 1, w.pos1Begin, w.pos2Begin, false,
        w.chunks ++
          [⟨w.pos1Begin, w.pos2Begin, w.pos1 - w.pos1Begin, w.pos2 - w.pos2Begin⟩]⟩) ∧
    (∀ steps : List DiffStep, (writerChunks steps).length = skipRuns steps) := by
  constructor
  · rintro ⟨p1, p2, b1, b2, o, ch⟩ hO
    subst hO
    simp [Writer.eqStep, Writer.flushChunk]
  · exact writerChunks_length

/-- Witness for C7 at a concrete writer state and stream. -/
theorem C7_merger_behavior_witness :
    (Writer.eqStep ⟨3, 5, 1, 2, true, []⟩ = ⟨4, 6, 1, 2, false, [⟨1, 2, 2, 3⟩]⟩) ∧
    (writerChunks [DiffStep.skipA 1, DiffStep.skipB 2, DiffStep.eqS,
        DiffStep.skipB 1]).length =
      skipRuns [DiffStep.skipA 1, DiffStep.skipB 2, DiffStep.eqS, DiffStep.skipB 1] :=
  ⟨C7_merger_behavior.1 ⟨3, 5, 1, 2, true, []⟩ rfl,
   C7_merger_behavior.2 [DiffStep.skipA 1, DiffStep.skipB 2, DiffStep.eqS,
     DiffStep.skipB 1]⟩

/-- C8: `LiveEdit::CompareStrings` on the empty first text and `"abc"`
yields exactly one chunk `(0, 0, 0, 3)`; on `"abc"` and the empty second
text exactly one chunk `(0, 0, 3, 0)`; on two empty texts the empty chunk
list. -/
theorem C8_empty_input_cases :
    compareStrings [] ['a', 'b', 'c'] = [⟨0, 0, 0, 3⟩] ∧
    compareStrings ['a', 'b', 'c'] [] = [⟨0, 0, 3, 0⟩] ∧
    compareStrings [] [] = [] :=
  ⟨by decide, by decide, by decide⟩

/-- C9: in the chunk list produced by `LiveEdit::CompareStrings` on any
pair of texts, every chunk satisfies `pos2 - pos1 = Σ` over all earlier
chunks of `(len2 - len1)` (starting from offset `0`): the gap between
consecutive chunks has the same length in both texts, which is what makes
the serialized triple `(pos1, pos1 + len1, pos2 + len2)` lossless. -/
theorem C9_chunks_aligned (s1 s2 : List Char) :
    chunksAligned 0 (compareStrings s1 s2) = true := by
  have h := covers_chunksAligned (charEq s1 s2) s1.length s2.length
    (compareStrings s1 s2) 0 0 (compareStrings_covers s1 s2)
  simpa using h

/-- C10: every chunk emitted by the chunk merger (for any input view, hence
at line and at token granularity) is non-degenerate: its lengths satisfy
`len1 + len2 ≥ 1`; a chunk with both lengths zero is never emitted. -/
theorem C10_no_degenerate_chunk (eqf : Nat → Nat → Bool) (len1 len2 : Nat) :
    ∀ c ∈ calculateDifference eqf len1 len2, 1 ≤ c.len1 + c.len2 :=
  calculateDifference_nondegenerate eqf len1 len2

/-- Witness for C10 at a concrete input. -/
theorem C10_no_degenerate_chunk_witness :
    1 ≤ (Chunk.mk 0 0 1 1).len1 + (Chunk.mk 0 0 1 1).len2 := by
  have h := C10_no_degenerate_chunk (fun _ _ => false) 1 1 ⟨0, 0, 1, 1⟩
  apply h
  rw [show calculateDifference (fun _ _ => false) 1 1 = [⟨0, 0, 1, 1⟩] from by decide]
  exact List.mem_singleton.2 rfl

end LiveEdit
